import Mathlib

/-!
Verification development for the folio-ibkr order/history core.

The JavaScript source is embedded shallowly:
- strings are Lean `String`s (lists of `Char`s); the JS regular expressions used
  by the message classifier are fixed literal/shape searches and are embedded as
  explicit scanners over `List Char`;
- JS `Map`s are association lists with insert-or-update-in-place (`upsertA`),
  matching JS `Map.set` semantics (first-insertion position kept, value updated);
- `Array.prototype.sort` with a consistent comparator is embedded as a stable
  `List.insertionSort` with the comparator's reflexive closure;
- money amounts are embedded as `ℚ`; at every concrete input used below the
  source's float arithmetic is exact, so the rational model agrees with it;
- the event-driven order tracker, cancel flow and open-orders registry are
  embedded as step functions over explicit states, driven by event traces.
-/

namespace Folio

/-- Whitespace class used by the source's regexes (`\s`) and by `trim`,
restricted to the whitespace characters that can actually occur in broker
messages handled by the code. -/
def wsChar (c : Char) : Bool :=
  c = ' ' || c = '\t' || c = '\n' || c = '\r' || c = '\x0b' || c = '\x0c' ||
  c = ' '

/-- Scan the tail of a line-break tag: `\s*` then optional `/` then `>`.
Mirrors the tail of the regex `<br\s*\/?>` from `extractRejection`. -/
def brTail : List Char → Option (List Char)
  | [] => none
  | c :: rest =>
    if wsChar c then brTail rest
    else if c = '/' then
      match rest with
      | d :: r2 => if d = '>' then some r2 else none
      | [] => none
    else if c = '>' then some rest
    else none

/-- Try to match the regex `<br\s*\/?>` (case-insensitive on `b`/`r`) at the
head of the list; on success return the remainder after the match. -/
def tryBr : List Char → Option (List Char)
  | c0 :: c1 :: c2 :: rest =>
    if c0 = '<' && (c1 = 'b' || c1 = 'B') && (c2 = 'r' || c2 = 'R') then
      brTail rest
    else none
  | _ => none

theorem brTail_length {l r : List Char} (h : brTail l = some r) :
    r.length < l.length := by
  induction l with
  | nil => simp [brTail] at h
  | cons c rest ih =>
    simp only [brTail] at h
    split at h
    · exact Nat.lt_trans (ih h) (by simp)
    · split at h
      · cases rest with
        | nil => cases h
        | cons d r2 =>
          by_cases hd : d = '>'
          · simp only [hd, if_pos rfl] at h
            cases h
            simp
            omega
          · simp only [if_neg hd] at h
            cases h
      · split at h
        · cases h
          simp
        · cases h

theorem tryBr_length {l r : List Char} (h : tryBr l = some r) :
    r.length < l.length := by
  match l with
  | [] => simp [tryBr] at h
  | [c0] => simp [tryBr] at h
  | [c0, c1] => simp [tryBr] at h
  | c0 :: c1 :: c2 :: rest =>
    simp only [tryBr] at h
    split at h
    · have := brTail_length h
      simp only [List.length_cons]
      omega
    · cases h

/-- Fuel-indexed single left-to-right pass replacing each match of
`<br\s*\/?>` by a single space, as `reason.replace(/<br\s*\/?>/gi, ' ')`
does (the scan continues after the match; the result is not rescanned). -/
def stripBrFuel : Nat → List Char → List Char
  | 0, l => l
  | _ + 1, [] => []
  | fuel + 1, c :: rest =>
    match tryBr (c :: rest) with
    | some rest' => ' ' :: stripBrFuel fuel rest'
    | none => c :: stripBrFuel fuel rest

/-- The `replace(/<br\s*\/?>/gi, ' ')` pass from `extractRejection`. -/
def stripBr (l : List Char) : List Char :=
  stripBrFuel l.length l

theorem stripBrFuel_fuel_irrel :
    ∀ (n m : Nat) (l : List Char), l.length ≤ n → l.length ≤ m →
      stripBrFuel n l = stripBrFuel m l := by
  intro n
  induction n with
  | zero =>
    intro m l hn _
    have : l = [] := List.eq_nil_of_length_eq_zero (Nat.le_zero.mp hn)
    subst this
    cases m <;> simp [stripBrFuel]
  | succ n ih =>
    intro m l hn hm
    match l with
    | [] => cases m <;> simp [stripBrFuel]
    | c :: rest =>
      match m with
      | 0 => simp at hm
      | m + 1 =>
        simp only [stripBrFuel]
        cases htry : tryBr (c :: rest) with
        | some rest' =>
          have hlen := tryBr_length htry
          simp only [List.length_cons] at hn hm hlen
          have h1 : rest'.length ≤ n := by omega
          have h2 : rest'.length ≤ m := by omega
          show ' ' :: stripBrFuel n rest' = ' ' :: stripBrFuel m rest'
          rw [ih m rest' h1 h2]
        | none =>
          simp only [List.length_cons] at hn hm
          have h1 : rest.length ≤ n := by omega
          have h2 : rest.length ≤ m := by omega
          show c :: stripBrFuel n rest = c :: stripBrFuel m rest
          rw [ih m rest h1 h2]

theorem stripBr_nil : stripBr [] = [] := rfl

theorem stripBr_cons_match {c : Char} {rest rest' : List Char}
    (h : tryBr (c :: rest) = some rest') :
    stripBr (c :: rest) = ' ' :: stripBr rest' := by
  have hlen := tryBr_length h
  simp only [stripBr, stripBrFuel, List.length_cons, h]
  rw [stripBrFuel_fuel_irrel rest.length rest'.length rest' (by simp at hlen; omega) le_rfl]

theorem stripBr_cons_nomatch {c : Char} {rest : List Char}
    (h : tryBr (c :: rest) = none) :
    stripBr (c :: rest) = c :: stripBr rest := by
  simp only [stripBr, stripBrFuel, List.length_cons, h]

/-- JS `String.prototype.trim`, on the whitespace class `wsChar`. -/
def trimChars (l : List Char) : List Char :=
  ((l.dropWhile wsChar).reverse.dropWhile wsChar).reverse

/-- Cleanup applied by `extractRejection` to the captured reason:
`reason.replace(/<br\s*\/?>/gi, ' ').trim()`. -/
def cleanReason (raw : List Char) : String :=
  String.mk (trimChars (stripBr raw))

/-- JS `String.prototype.includes(lit)`: `lit` occurs contiguously in `s`. -/
def containsLit (lit : List Char) : List Char → Bool
  | [] => lit.isEmpty
  | c :: rest => lit.isPrefixOf (c :: rest) || containsLit lit rest

/-- Line terminators, which `.` in a JS regex does not match. -/
def isLineTerm (c : Char) : Bool :=
  c = '\n' || c = '\r' || c = ' ' || c = ' '

/-- Leftmost match of a regex `lit(.+)`: find the first occurrence of the
literal `lit` that is followed by at least one non-line-terminator character,
and return the greedy capture (the run of non-line-terminator characters
following the literal). -/
def matchLitCapture (lit : List Char) : List Char → Option (List Char)
  | [] => none
  | c :: rest =>
    if lit.isPrefixOf (c :: rest) then
      let cap := ((c :: rest).drop lit.length).takeWhile (fun d => !isLineTerm d)
      if cap.isEmpty then matchLitCapture lit rest else some cap
    else matchLitCapture lit rest

/-- Character shape of the regex `\d{4}-\d{2}-\d{2} \d{2}:\d{2}:\d{2}`. -/
def dtShape : List (Char → Bool) :=
  let d : Char → Bool := fun c => c.isDigit
  [d, d, d, d, (· = '-'), d, d, (· = '-'), d, d, (· = ' '),
   d, d, (· = ':'), d, d, (· = ':'), d, d]

/-- Match a fixed character shape at the head of a list, returning the
matched characters. -/
def matchShape : List (Char → Bool) → List Char → Option (List Char)
  | [], _ => some []
  | _ :: _, [] => none
  | p :: ps, c :: cs => if p c then (matchShape ps cs).map (c :: ·) else none

/-- Leftmost match of a regex `lit(\d{4}-\d{2}-\d{2} \d{2}:\d{2}:\d{2})`:
find the first occurrence of `lit` followed by the datetime shape, and
return the captured datetime characters. -/
def findLitDT (lit : List Char) : List Char → Option (List Char)
  | [] => none
  | c :: rest =>
    if lit.isPrefixOf (c :: rest) then
      match matchShape dtShape ((c :: rest).drop lit.length) with
      | some dt => some dt
      | none => findLitDT lit rest
    else findLitDT lit rest

/-- A classified fatal broker message (`extractRejection`'s return shape). -/
structure Rejection where
  type : String
  reason : String
  rawMessage : String
  deriving DecidableEq, Repr

/-- A classified non-fatal broker message (`extractWarning`'s return shape). -/
structure Warning where
  type : String
  rawMessage : String
  timestamp : Option String
  deriving DecidableEq, Repr

/-- `REJECTION_PATTERNS`, tried in source order by `extractRejection`. -/
def litMotivo : List Char := "Orden rechazada. Motivo:".data
def litReason : List Char := "Order rejected. Reason:".data
def litEfectivo : List Char := "Efectivo liquidado disponible".data
def litFunds : List Char := "Insufficient funds".data

/-- `extractRejection(message)`: try the rejection patterns in order; on a
match, the reason is `match[1] || message` with `<br>`-style tags replaced
by spaces and the result trimmed. The two capture-group patterns supply the
capture; the two bare patterns fall back to the whole message. An empty
message returns `null`. -/
def extractRejection (message : String) : Option Rejection :=
  if message = "" then none else
  match matchLitCapture litMotivo message.data with
  | some cap => some ⟨"rejected", cleanReason cap, message⟩
  | none =>
    match matchLitCapture litReason message.data with
    | some cap => some ⟨"rejected", cleanReason cap, message⟩
    | none =>
      if containsLit litEfectivo message.data then
        some ⟨"insufficient_funds", cleanReason message.data, message⟩
      else if containsLit litFunds message.data then
        some ⟨"insufficient_funds", cleanReason message.data, message⟩
      else none

/-- `WARNING_PATTERNS` literals, tried in source order by `extractWarning`. -/
def litEsHasta : List Char := "no se enviará al mercado hasta el ".data
def litEnUntil : List Char := "will not be sent to the market until ".data
def litNotActive : List Char := "order will not be active until".data
def litHeld : List Char := "order is being held".data

/-- `extractWarning(message)`: try the warning patterns in source order.
The first two capture a datetime timestamp; the last two have no capture so
the stored timestamp is `null`. An empty message returns `null`. -/
def extractWarning (message : String) : Option Warning :=
  if message = "" then none else
  match findLitDT litEsHasta message.data with
  | some dt => some ⟨"market_closed", message, some (String.mk dt)⟩
  | none =>
    match findLitDT litEnUntil message.data with
    | some dt => some ⟨"market_closed", message, some (String.mk dt)⟩
    | none =>
      if containsLit litNotActive message.data then
        some ⟨"market_closed", message, none⟩
      else if containsLit litHeld message.data then
        some ⟨"order_held", message, none⟩
      else none

/-- `IGNORABLE_MESSAGES` membership test (`isIgnorableMessage`). -/
def isIgnorableMessage (message : String) : Bool :=
  message ≠ "" && containsLit "Order TIF was set to DAY based on order preset".data message.data

theorem subSegNilEq {x : List Char} (h : x <:+: ([] : List Char)) : x = [] := by
  obtain ⟨s, t, hst⟩ := h
  rcases List.append_eq_nil.mp hst with ⟨h1, h2⟩
  exact (List.append_eq_nil.mp h1).2

theorem subSegCons {x l : List Char} {a : Char} (h : x <:+: (a :: l)) :
    x <+: (a :: l) ∨ x <:+: l := by
  obtain ⟨s, t, hst⟩ := h
  cases s with
  | nil => exact Or.inl ⟨t, by simpa using hst⟩
  | cons b s' =>
    right
    refine ⟨s', t, ?_⟩
    have := List.cons.injEq b (s' ++ x ++ t) a l ▸ hst
    simpa using (List.cons.inj hst).2

theorem subSegTrans {x y z : List Char} (h1 : x <:+: y) (h2 : y <:+: z) :
    x <:+: z := by
  obtain ⟨s1, t1, hy⟩ := h1
  obtain ⟨s2, t2, hz⟩ := h2
  exact ⟨s2 ++ s1, t1 ++ t2, by rw [← hz, ← hy]; simp⟩

/-- A prefix of `stripBr l` consisting of non-space characters is already a
prefix of `l`: the scanner either copies the head character or emits `' '`. -/
theorem stripBr_transfer :
    ∀ (n : Nat) (l p : List Char), l.length ≤ n → (∀ c ∈ p, c ≠ ' ') →
      p <+: stripBr l → p <+: l := by
  intro n
  induction n with
  | zero =>
    intro l p hn _ hp
    have : l = [] := List.eq_nil_of_length_eq_zero (Nat.le_zero.mp hn)
    subst this
    simpa [stripBr_nil] using hp
  | succ n ih =>
    intro l p hn hns hp
    match l with
    | [] => simpa [stripBr_nil] using hp
    | c :: rest =>
      cases htry : tryBr (c :: rest) with
      | some rest' =>
        rw [stripBr_cons_match htry] at hp
        cases p with
        | nil => exact ⟨c :: rest, rfl⟩
        | cons x p' =>
          obtain ⟨t, ht⟩ := hp
          have hx : x = ' ' := (List.cons.inj ht).1
          exact absurd hx (hns x (by simp))
      | none =>
        rw [stripBr_cons_nomatch htry] at hp
        cases p with
        | nil => exact ⟨c :: rest, rfl⟩
        | cons x p' =>
          obtain ⟨t, ht⟩ := hp
          have hx : x = c := (List.cons.inj ht).1
          have hp' : p' <+: stripBr rest := ⟨t, (List.cons.inj ht).2⟩
          have hlen : rest.length ≤ n := by
            simp only [List.length_cons] at hn; omega
          obtain ⟨t', ht'⟩ := ih rest p' hlen (fun d hd => hns d (by simp [hd])) hp'
          exact ⟨t', by rw [hx]; simp [ht']⟩

def br4 : List Char := ['<', 'b', 'r', '>']
def br5 : List Char := ['<', 'b', 'r', '/', '>']

/-- After the single-pass `<br\s*\/?>` replacement, the output contains
neither `<br>` nor `<br/>` as a contiguous substring. -/
theorem stripBr_brFree :
    ∀ (n : Nat) (l : List Char), l.length ≤ n →
      ¬ (br4 <:+: stripBr l) ∧ ¬ (br5 <:+: stripBr l) := by
  intro n
  induction n with
  | zero =>
    intro l hn
    have : l = [] := List.eq_nil_of_length_eq_zero (Nat.le_zero.mp hn)
    subst this
    rw [stripBr_nil]
    constructor <;> intro h <;> cases subSegNilEq h
  | succ n ih =>
    intro l hn
    match l with
    | [] =>
      rw [stripBr_nil]
      constructor <;> intro h <;> cases subSegNilEq h
    | c :: rest =>
      cases htry : tryBr (c :: rest) with
      | some rest' =>
        rw [stripBr_cons_match htry]
        have hlen : rest'.length ≤ n := by
          have := tryBr_length htry
          simp only [List.length_cons] at hn this; omega
        constructor <;> intro h <;> rcases subSegCons h with hpre | hinf
        · obtain ⟨t, ht⟩ := hpre
          simp only [br4, List.cons_append] at ht
          exact absurd (List.cons.inj ht).1 (by decide)
        · exact (ih rest' hlen).1 hinf
        · obtain ⟨t, ht⟩ := hpre
          simp only [br5, List.cons_append] at ht
          exact absurd (List.cons.inj ht).1 (by decide)
        · exact (ih rest' hlen).2 hinf
      | none =>
        rw [stripBr_cons_nomatch htry]
        have hlen : rest.length ≤ n := by
          simp only [List.length_cons] at hn; omega
        constructor <;> intro h <;> rcases subSegCons h with hpre | hinf
        · obtain ⟨t0, ht0⟩ := hpre
          simp only [br4, List.cons_append, List.nil_append] at ht0
          have hc : c = '<' := ((List.cons.inj ht0).1).symm
          have hrest : stripBr rest = 'b' :: 'r' :: '>' :: t0 :=
            ((List.cons.inj ht0).2).symm
          have h3 : (['b', 'r', '>'] : List Char) <+: stripBr rest :=
            ⟨t0, by rw [hrest]; rfl⟩
          obtain ⟨t1, ht1⟩ := stripBr_transfer rest.length rest _ le_rfl
            (by decide) h3
          have hbad : tryBr (c :: rest) = some t1 := by
            rw [hc, ← ht1]; rfl
          rw [htry] at hbad
          cases hbad
        · exact (ih rest hlen).1 hinf
        · obtain ⟨t0, ht0⟩ := hpre
          simp only [br5, List.cons_append, List.nil_append] at ht0
          have hc : c = '<' := ((List.cons.inj ht0).1).symm
          have hrest : stripBr rest = 'b' :: 'r' :: '/' :: '>' :: t0 :=
            ((List.cons.inj ht0).2).symm
          have h3 : (['b', 'r', '/', '>'] : List Char) <+: stripBr rest :=
            ⟨t0, by rw [hrest]; rfl⟩
          obtain ⟨t1, ht1⟩ := stripBr_transfer rest.length rest _ le_rfl
            (by decide) h3
          have hbad : tryBr (c :: rest) = some t1 := by
            rw [hc, ← ht1]; rfl
          rw [htry] at hbad
          cases hbad
        · exact (ih rest hlen).2 hinf

theorem dropWhile_head_not_ws :
    ∀ (l : List Char) (c : Char), (l.dropWhile wsChar).head? = some c →
      wsChar c = false := by
  intro l
  induction l with
  | nil => intro c h; simp [List.dropWhile] at h
  | cons a rest ih =>
    intro c h
    by_cases ha : wsChar a
    · rw [List.dropWhile_cons_of_pos ha] at h
      exact ih c h
    · rw [List.dropWhile_cons_of_neg ha] at h
      simp only [List.head?_cons, Option.some.injEq] at h
      subst h
      exact Bool.eq_false_iff.mpr ha

theorem dropWhile_isSfx (l : List Char) : l.dropWhile wsChar <:+ l := by
  induction l with
  | nil => exact ⟨[], rfl⟩
  | cons a rest ih =>
    by_cases ha : wsChar a
    · rw [List.dropWhile_cons_of_pos ha]
      obtain ⟨s, hs⟩ := ih
      exact ⟨a :: s, by simp [hs]⟩
    · rw [List.dropWhile_cons_of_neg ha]

theorem trimChars_isSeg (l : List Char) : trimChars l <:+: l := by
  unfold trimChars
  obtain ⟨s, hs⟩ := dropWhile_isSfx (l.dropWhile wsChar).reverse
  obtain ⟨u, hu⟩ := dropWhile_isSfx l
  refine ⟨u, s.reverse, ?_⟩
  have h1 : l.dropWhile wsChar =
      ((l.dropWhile wsChar).reverse.dropWhile wsChar).reverse ++ s.reverse := by
    have := congrArg List.reverse hs
    simpa using this.symm
  rw [List.append_assoc, ← h1, hu]

theorem headOfAppend {r z : List Char} (h : r ≠ []) :
    (r ++ z).head? = r.head? := by
  cases r with
  | nil => exact absurd rfl h
  | cons a t => rfl

/-- The trimmed list starts with a non-whitespace character (when nonempty). -/
theorem trimChars_head (l : List Char) (c : Char)
    (h : (trimChars l).head? = some c) : wsChar c = false := by
  unfold trimChars at h
  set m := l.dropWhile wsChar with hm
  obtain ⟨s, hs⟩ := dropWhile_isSfx m.reverse
  have hr : m = (m.reverse.dropWhile wsChar).reverse ++ s.reverse := by
    have := congrArg List.reverse hs
    simpa using this.symm
  have hne : (m.reverse.dropWhile wsChar).reverse ≠ [] := by
    intro hnil
    rw [hnil] at h
    simp at h
  have hhead : m.head? = some c := by
    rw [hr, headOfAppend hne, h]
  exact dropWhile_head_not_ws l c (hm ▸ hhead)

/-- The trimmed list ends with a non-whitespace character (when nonempty). -/
theorem trimChars_last (l : List Char) (c : Char)
    (h : (trimChars l).getLast? = some c) : wsChar c = false := by
  unfold trimChars at h
  rw [List.getLast?_reverse] at h
  exact dropWhile_head_not_ws (l.dropWhile wsChar).reverse c h

/-- Every `cleanReason` output (`<br>`-strip then trim) is free of `<br>`
and `<br/>` substrings and carries no leading or trailing whitespace. -/
theorem cleanReason_props (raw : List Char) :
    (¬ (br4 <:+: (cleanReason raw).data) ∧ ¬ (br5 <:+: (cleanReason raw).data)) ∧
    ((cleanReason raw).data.head?.all (fun c => !wsChar c) = true ∧
     (cleanReason raw).data.getLast?.all (fun c => !wsChar c) = true) := by
  have hdata : (cleanReason raw).data = trimChars (stripBr raw) := rfl
  have hfree := stripBr_brFree raw.length raw le_rfl
  have hseg := trimChars_isSeg (stripBr raw)
  rw [hdata]
  refine ⟨⟨fun h => hfree.1 (subSegTrans h hseg),
          fun h => hfree.2 (subSegTrans h hseg)⟩, ?_, ?_⟩
  · cases hh : (trimChars (stripBr raw)).head? with
    | none => rfl
    | some c =>
      have := trimChars_head (stripBr raw) c hh
      simp [Option.all, this]
  · cases hh : (trimChars (stripBr raw)).getLast? with
    | none => rfl
    | some c =>
      have := trimChars_last (stripBr raw) c hh
      simp [Option.all, this]

/-- C7: for every message string matching one of the rejection patterns, the
classifier returns a rejection whose reason contains no line-break tag
substring (`<br>` or `<br/>`) and carries no leading or trailing whitespace;
the reason is the cleaned capture for capture-group patterns and the cleaned
whole message otherwise. -/
theorem c7_rejection_reason_clean (message : String) (r : Rejection)
    (h : extractRejection message = some r) :
    (¬ (br4 <:+: r.reason.data) ∧ ¬ (br5 <:+: r.reason.data)) ∧
    (r.reason.data.head?.all (fun c => !wsChar c) = true ∧
     r.reason.data.getLast?.all (fun c => !wsChar c) = true) := by
  unfold extractRejection at h
  split at h
  · cases h
  · split at h
    · injection h with h2
      subst h2
      exact cleanReason_props _
    · split at h
      · injection h with h2
        subst h2
        exact cleanReason_props _
      · split at h
        · injection h with h2
          subst h2
          exact cleanReason_props _
        · split at h
          · injection h with h2
            subst h2
            exact cleanReason_props _
          · cases h

/-- Witness for C7 at a concrete rejection message carrying a `<br/>` tag
and trailing whitespace. -/
theorem c7_witness :
    (extractRejection "Order rejected. Reason: Not enough<br/>liquidity  " =
      some ⟨"rejected", "Not enough liquidity", "Order rejected. Reason: Not enough<br/>liquidity  "⟩) ∧
    ((¬ (br4 <:+: ("Not enough liquidity").data) ∧
      ¬ (br5 <:+: ("Not enough liquidity").data)) ∧
     (("Not enough liquidity").data.head?.all (fun c => !wsChar c) = true ∧
      ("Not enough liquidity").data.getLast?.all (fun c => !wsChar c) = true)) :=
  ⟨by decide,
   c7_rejection_reason_clean
     "Order rejected. Reason: Not enough<br/>liquidity  "
     ⟨"rejected", "Not enough liquidity",
      "Order rejected. Reason: Not enough<br/>liquidity  "⟩ (by decide)⟩

/-! ## Order Lifecycle Tracker (`useTrade.submitOrder`) -/

/-- The resolved result of one submission (shape of the objects passed to
`resolve` in `submitOrder`). -/
structure Outcome where
  orderId : Int
  status : String
  filled : Option ℚ
  avgFillPrice : Option ℚ
  warning : Option Warning
  rejectionReason : Option String
  deriving DecidableEq, Repr

/-- Events observable by the per-order listeners of `submitOrder`: an
`orderStatus` event, an `error` event (`err.message` plus `data.id`), and
the 30-second timer firing. -/
inductive TEvent where
  | orderStatus (id : Int) (status : String) (filled remaining avgFillPrice : ℚ)
  | error (message : String) (dataId : Option Int)
  | timeout
  deriving DecidableEq, Repr

/-- An externally visible settlement of the submission promise. -/
inductive TOutput where
  | resolved (o : Outcome)
  | rejectedMsg (message : String)
  deriving DecidableEq, Repr

def terminalStatuses : List String := ["Filled", "Cancelled", "Inactive"]

def acceptedStatuses : List String := ["Submitted", "PreSubmitted", "Filled"]

/-- Per-order tracker state: the closure variables of the promise executor in
`submitOrder` (`lastStatus`, `resolved`, `orderWarning`, `orderRejection`),
plus whether the two listeners are still attached and whether the 30-second
timer is still pending (both cleared together by `cleanup`). -/
structure TState where
  orderId : Int
  lastStatus : String
  resolved : Bool
  orderWarning : Option Warning
  orderRejection : Option Rejection
  listening : Bool
  timerActive : Bool
  deriving DecidableEq, Repr

def initState (oid : Int) : TState :=
  ⟨oid, "Submitting", false, none, none, true, true⟩

/-- `onError`'s scoping test: the event is processed unless
`errorId !== undefined && errorId !== -1 && errorId !== orderId`. -/
def errScoped (oid : Int) : Option Int → Bool
  | none => true
  | some i => i = -1 || i = oid

/-- `err?.message || 'Error submitting order'`. -/
def errMsg (m : String) : String :=
  if m = "" then "Error submitting order" else m

/-- One step of the tracker: dispatch one event to the (still attached)
handlers `onOrderStatus` / `onError` or to the timeout callback, returning
the next state and the promise settlement this event causes, if any. -/
def step (s : TState) (e : TEvent) : TState × Option TOutput :=
  match e with
  | .orderStatus id status filled _ avg =>
    if !s.listening then (s, none)
    else if id ≠ s.orderId then (s, none)
    else
      let s1 := { s with lastStatus := status }
      if !s.resolved &&
          (terminalStatuses.contains status || acceptedStatuses.contains status) then
        ({ s1 with resolved := true, listening := false, timerActive := false },
         some (.resolved ⟨id, status, some filled, some avg, s.orderWarning,
                          s.orderRejection.map Rejection.reason⟩))
      else (s1, none)
  | .error message dataId =>
    if !s.listening then (s, none)
    else if s.resolved then (s, none)
    else if !errScoped s.orderId dataId then (s, none)
    else if isIgnorableMessage (errMsg message) then (s, none)
    else
      match extractRejection (errMsg message) with
      | some rej => ({ s with orderRejection := some rej }, none)
      | none =>
        match extractWarning (errMsg message) with
        | some w => ({ s with orderWarning := some w }, none)
        | none =>
          ({ s with resolved := true, listening := false, timerActive := false },
           some (.rejectedMsg (errMsg message)))
  | .timeout =>
    if !s.timerActive then (s, none)
    else if s.resolved then (s, none)
    else
      ({ s with resolved := true, listening := false, timerActive := false },
       some (.resolved ⟨s.orderId,
         (match s.orderRejection with
          | some _ => "Inactive"
          | none =>
            match s.orderWarning with
            | some _ => "Submitted"
            | none => s.lastStatus),
         none, none, s.orderWarning, s.orderRejection.map Rejection.reason⟩))

/-- Run the tracker over an event trace, collecting promise settlements. -/
def runT (s : TState) : List TEvent → TState × List TOutput
  | [] => (s, [])
  | e :: tr =>
    let p := step s e
    let q := runT p.1 tr
    (q.1, p.2.toList ++ q.2)

theorem runT_cons (s : TState) (e : TEvent) (tr : List TEvent) :
    runT s (e :: tr) =
      ((runT (step s e).1 tr).1,
       (step s e).2.toList ++ (runT (step s e).1 tr).2) := rfl

theorem runT_append (s : TState) (l1 l2 : List TEvent) :
    runT s (l1 ++ l2) =
      ((runT (runT s l1).1 l2).1, (runT s l1).2 ++ (runT (runT s l1).1 l2).2) := by
  induction l1 generalizing s with
  | nil => simp [runT]
  | cons e tr ih => simp [runT, ih (step s e).1, List.append_assoc]

theorem step_closed {s : TState} (h1 : s.listening = false)
    (h2 : s.timerActive = false) (e : TEvent) : step s e = (s, none) := by
  cases e <;> simp [step, h1, h2]

/-- Once the listeners are detached and the timer cleared, no further event
changes the state or settles the promise. -/
theorem runT_closed {s : TState} (h1 : s.listening = false)
    (h2 : s.timerActive = false) (tr : List TEvent) : runT s tr = (s, []) := by
  induction tr with
  | nil => rfl
  | cons e tr ih => simp [runT, step_closed h1 h2, ih]

/-- Trace-level recomputation of `lastStatus`: the last status string seen
in an `orderStatus` event for this order id. -/
def statusUpd (oid : Int) (prev : String) : TEvent → String
  | .orderStatus id st _ _ _ => if id = oid then st else prev
  | _ => prev

/-- Trace-level recomputation of `orderRejection`: the last stored
classified rejection (scoped, not ignorable, matching a rejection pattern). -/
def rejUpd (oid : Int) (prev : Option Rejection) : TEvent → Option Rejection
  | .error msg dId =>
    if errScoped oid dId && !isIgnorableMessage (errMsg msg) then
      match extractRejection (errMsg msg) with
      | some rej => some rej
      | none => prev
    else prev
  | _ => prev

/-- Trace-level recomputation of `orderWarning`: the last stored classified
warning (scoped, not ignorable, not a rejection, matching a warning
pattern). -/
def warnUpd (oid : Int) (prev : Option Warning) : TEvent → Option Warning
  | .error msg dId =>
    if errScoped oid dId && !isIgnorableMessage (errMsg msg) &&
        (extractRejection (errMsg msg)).isNone then
      match extractWarning (errMsg msg) with
      | some w => some w
      | none => prev
    else prev
  | _ => prev

/-- The executor state is live: unresolved, listeners attached, timer
pending. Holds initially and is preserved by every silent step. -/
def Live (s : TState) : Prop :=
  s.resolved = false ∧ s.listening = true ∧ s.timerActive = true

/-- A silent step (no settlement) from a live state updates exactly the
three closure variables `lastStatus`, `orderRejection`, `orderWarning`,
as recomputed by the trace-level functions. -/
theorem step_silent {s : TState} {e : TEvent} (hl : Live s)
    (h : (step s e).2 = none) :
    (step s e).1 =
      { s with lastStatus := statusUpd s.orderId s.lastStatus e,
               orderRejection := rejUpd s.orderId s.orderRejection e,
               orderWarning := warnUpd s.orderId s.orderWarning e } := by
  obtain ⟨hr, hli, hti⟩ := hl
  obtain ⟨oid, ls, rs, ow, orj, li, ti⟩ := s
  simp only at hr hli hti
  subst hr hli hti
  cases e with
  | orderStatus id st f rem avg =>
    by_cases hid : id = oid
    · by_cases hterm : st ∈ terminalStatuses ∨ st ∈ acceptedStatuses
      · exfalso
        simp [step, hid, hterm] at h
      · simp [step, hid, hterm, statusUpd, rejUpd, warnUpd]
    · simp [step, hid, statusUpd, rejUpd, warnUpd]
  | error msg dId =>
    by_cases hsc : errScoped oid dId = true
    · by_cases hign : isIgnorableMessage (errMsg msg) = true
      · simp [step, hsc, hign, statusUpd, rejUpd, warnUpd]
      · cases hrej : extractRejection (errMsg msg) with
        | some rej =>
          simp [step, hsc, hign, hrej, statusUpd, rejUpd, warnUpd]
        | none =>
          cases hwarn : extractWarning (errMsg msg) with
          | some w =>
            simp [step, hsc, hign, hrej, hwarn, statusUpd, rejUpd, warnUpd]
          | none =>
            exfalso
            simp [step, hsc, hign, hrej, hwarn] at h
    · simp only [Bool.not_eq_true] at hsc
      simp [step, hsc, statusUpd, rejUpd, warnUpd]
  | timeout =>
    exfalso
    simp [step] at h

/-- A silent run from a live state leaves the three closure variables at
exactly the values recomputed from the trace, and everything else (order
id, flags) unchanged. -/
theorem runT_silent :
    ∀ (tr : List TEvent) (s : TState), Live s → (runT s tr).2 = [] →
      (runT s tr).1 =
        { s with lastStatus := tr.foldl (statusUpd s.orderId) s.lastStatus,
                 orderRejection := tr.foldl (rejUpd s.orderId) s.orderRejection,
                 orderWarning := tr.foldl (warnUpd s.orderId) s.orderWarning } := by
  intro tr
  induction tr with
  | nil => intro s _ _; rfl
  | cons e tr ih =>
    intro s hl hout
    have hsplit : (step s e).2.toList ++ (runT (step s e).1 tr).2 = [] := by
      simpa [runT] using hout
    have h1 : (step s e).2 = none := by
      cases hh : (step s e).2 with
      | none => rfl
      | some o => rw [hh] at hsplit; simp at hsplit
    have h2 : (runT (step s e).1 tr).2 = [] := by
      rw [h1] at hsplit
      simpa using hsplit
    have hstep := step_silent hl h1
    have hl' : Live (step s e).1 := by
      rw [hstep]; exact hl
    have hrec := ih (step s e).1 hl' h2
    have hgoal : (runT s (e :: tr)).1 = (runT (step s e).1 tr).1 := by
      simp [runT]
    rw [hgoal, hrec, hstep]
    simp [List.foldl_cons]

/-- C1: if the 30-second timer fires with no prior settlement, the tracker
resolves exactly once (also across any later events), with status chosen by
precedence: `Inactive` with the captured rejection reason if a rejection was
classified and stored; else `Submitted` with the stored (non-null) warning;
else the last observed broker status, defaulting to `"Submitting"`. -/
theorem c1_timeout_precedence (oid : Int) (tr tr2 : List TEvent)
    (h : (runT (initState oid) tr).2 = []) :
    (runT (initState oid) (tr ++ TEvent.timeout :: tr2)).2 =
      [TOutput.resolved
        ⟨oid,
         (match tr.foldl (rejUpd oid) none with
          | some _ => "Inactive"
          | none =>
            match tr.foldl (warnUpd oid) none with
            | some _ => "Submitted"
            | none => tr.foldl (statusUpd oid) "Submitting"),
         none, none,
         tr.foldl (warnUpd oid) none,
         (tr.foldl (rejUpd oid) none).map Rejection.reason⟩] := by
  have hlive : Live (initState oid) := ⟨rfl, rfl, rfl⟩
  have hs := runT_silent tr (initState oid) hlive h
  rw [runT_append, h, hs]
  simp only [List.nil_append, runT, step, initState]
  rw [runT_closed rfl rfl tr2]
  simp [initState]

/-- Witness for C1: a scoped `Insufficient funds` rejection is stored, then
the timer fires; the tracker resolves `Inactive` with the captured reason. -/
theorem c1_witness :
    ((runT (initState 5) [TEvent.error "Insufficient funds" (some 5)]).2 = []) ∧
    ((runT (initState 5)
        ([TEvent.error "Insufficient funds" (some 5)] ++ TEvent.timeout :: [])).2 =
      [TOutput.resolved
        ⟨5,
         (match [TEvent.error "Insufficient funds" (some 5)].foldl (rejUpd 5) none with
          | some _ => "Inactive"
          | none =>
            match [TEvent.error "Insufficient funds" (some 5)].foldl (warnUpd 5) none with
            | some _ => "Submitted"
            | none => [TEvent.error "Insufficient funds" (some 5)].foldl (statusUpd 5) "Submitting"),
         none, none,
         [TEvent.error "Insufficient funds" (some 5)].foldl (warnUpd 5) none,
         ([TEvent.error "Insufficient funds" (some 5)].foldl (rejUpd 5) none).map
           Rejection.reason⟩]) :=
  ⟨by decide, c1_timeout_precedence 5 [TEvent.error "Insufficient funds" (some 5)] [] (by decide)⟩

/-- C2: a status event for this order with a terminal or accepted status,
arriving before any settlement, resolves the outcome with exactly that
status; the settlement happens exactly once no matter what later events
arrive, and the listeners are detached at the moment of resolution. -/
theorem c2_status_resolution (oid : Int) (st : String) (f r a : ℚ)
    (tr1 tr2 : List TEvent)
    (h : (runT (initState oid) tr1).2 = [])
    (hst : st ∈ terminalStatuses ∨ st ∈ acceptedStatuses) :
    ((runT (initState oid)
        (tr1 ++ TEvent.orderStatus oid st f r a :: tr2)).2 =
      [TOutput.resolved
        ⟨oid, st, some f, some a,
         tr1.foldl (warnUpd oid) none,
         (tr1.foldl (rejUpd oid) none).map Rejection.reason⟩]) ∧
    ((runT (initState oid) (tr1 ++ [TEvent.orderStatus oid st f r a])).1.listening
      = false) := by
  have hlive : Live (initState oid) := ⟨rfl, rfl, rfl⟩
  have hs := runT_silent tr1 (initState oid) hlive h
  simp only [initState] at hs
  have hstep : step
      ({ orderId := oid, lastStatus := List.foldl (statusUpd oid) "Submitting" tr1,
         resolved := false,
         orderWarning := List.foldl (warnUpd oid) none tr1,
         orderRejection := List.foldl (rejUpd oid) none tr1,
         listening := true, timerActive := true } : TState)
      (TEvent.orderStatus oid st f r a) =
    ({ orderId := oid, lastStatus := st, resolved := true,
       orderWarning := List.foldl (warnUpd oid) none tr1,
       orderRejection := List.foldl (rejUpd oid) none tr1,
       listening := false, timerActive := false },
     some (TOutput.resolved ⟨oid, st, some f, some a,
       List.foldl (warnUpd oid) none tr1,
       (List.foldl (rejUpd oid) none tr1).map Rejection.reason⟩)) := by
    simp [step, hst]
  constructor
  · rw [runT_append, h]
    simp only [initState]
    rw [hs, runT_cons, hstep]
    rw [runT_closed rfl rfl tr2]
    simp
  · rw [runT_append]
    simp only [initState]
    rw [hs, runT_cons, hstep]
    simp [runT]

/-- Witness for C2: order 3 receives a stored `market_closed` warning, then
a `Submitted` status; the tracker resolves once with status `Submitted`
even though further events follow, and the listeners are detached. -/
theorem c2_witness :
    ((runT (initState 3)
        [TEvent.error "order will not be active until tomorrow" none]).2 = []) ∧
    ((runT (initState 3)
        ([TEvent.error "order will not be active until tomorrow" none] ++
          TEvent.orderStatus 3 "Submitted" 0 10 0 ::
            [TEvent.orderStatus 3 "Filled" 10 0 5, TEvent.timeout])).2 =
      [TOutput.resolved
        ⟨3, "Submitted", some 0, some 0,
         [TEvent.error "order will not be active until tomorrow" none].foldl
           (warnUpd 3) none,
         ([TEvent.error "order will not be active until tomorrow" none].foldl
           (rejUpd 3) none).map Rejection.reason⟩]) :=
  ⟨by decide,
   (c2_status_resolution 3 "Submitted" 0 10 0
      [TEvent.error "order will not be active until tomorrow" none]
      [TEvent.orderStatus 3 "Filled" 10 0 5, TEvent.timeout]
      (by decide) (by decide)).1⟩

/-- Pre-flight phase of `submitOrder`: the connection check (`!client ||
!isConnected` throws `Not connected`) and `getNextOrderId` (which rejects
with `Timeout getting order ID` if no `nextValidId` event arrives within
5 seconds, and otherwise yields the allocated id). -/
def submitPreflight (clientPresent connected : Bool) (idAlloc : Option Int) :
    Except String Int :=
  if !clientPresent || !connected then .error "Not connected"
  else
    match idAlloc with
    | none => .error "Timeout getting order ID"
    | some oid => .ok oid

theorem step_orderId (s : TState) (e : TEvent) :
    (step s e).1.orderId = s.orderId := by
  cases e <;> simp only [step] <;> (repeat' split) <;> rfl

/-- A step settles the promise with a rejection only on an `error` event
that is scoped to this order (or unscoped), not ignorable, and matches
neither a rejection nor a warning pattern. -/
theorem step_rejectedMsg {s : TState} {e : TEvent} {m : String}
    (h : (step s e).2 = some (TOutput.rejectedMsg m)) :
    ∃ msg dId, e = TEvent.error msg dId ∧ m = errMsg msg ∧
      errScoped s.orderId dId = true ∧
      isIgnorableMessage (errMsg msg) = false ∧
      extractRejection (errMsg msg) = none ∧
      extractWarning (errMsg msg) = none := by
  cases e with
  | orderStatus id st f rem a =>
    exfalso
    simp only [step] at h
    repeat' split at h
    all_goals simp at h
  | timeout =>
    exfalso
    simp only [step] at h
    repeat' split at h
    all_goals simp at h
  | error msg dId =>
    by_cases hli : s.listening = true
    · by_cases hres : s.resolved = true
      · exfalso; simp [step, hli, hres] at h
      · have hres' : s.resolved = false := by simpa using hres
        by_cases hsc : errScoped s.orderId dId = true
        · by_cases hign : isIgnorableMessage (errMsg msg) = true
          · exfalso; simp [step, hli, hres', hsc, hign] at h
          · have hign' : isIgnorableMessage (errMsg msg) = false := by
              simpa using hign
            cases hrej : extractRejection (errMsg msg) with
            | some rej =>
              exfalso; simp [step, hli, hres', hsc, hign', hrej] at h
            | none =>
              cases hwarn : extractWarning (errMsg msg) with
              | some w =>
                exfalso
                simp [step, hli, hres', hsc, hign', hrej, hwarn] at h
              | none =>
                have hm : m = errMsg msg := by
                  simp [step, hli, hres', hsc, hign', hrej, hwarn] at h
                  exact h.symm
                exact ⟨msg, dId, rfl, hm, hsc, hign', hrej, hwarn⟩
        · exfalso
          have hsc' : errScoped s.orderId dId = false := by simpa using hsc
          simp [step, hli, hres', hsc'] at h
    · exfalso
      have hli' : s.listening = false := by simpa using hli
      simp [step, hli'] at h

/-- Any rejected settlement along a run comes from an unclassified scoped
error event in the trace. -/
theorem runT_rejectedMsg :
    ∀ (tr : List TEvent) (s : TState) (m : String),
      TOutput.rejectedMsg m ∈ (runT s tr).2 →
      ∃ msg dId, TEvent.error msg dId ∈ tr ∧ m = errMsg msg ∧
        errScoped s.orderId dId = true ∧
        isIgnorableMessage (errMsg msg) = false ∧
        extractRejection (errMsg msg) = none ∧
        extractWarning (errMsg msg) = none := by
  intro tr
  induction tr with
  | nil => intro s m hmem; simp [runT] at hmem
  | cons e tr ih =>
    intro s m hmem
    rw [runT_cons] at hmem
    rcases List.mem_append.mp hmem with h1 | h2
    · have hsome : (step s e).2 = some (TOutput.rejectedMsg m) := by
        cases ho : (step s e).2 with
        | none => rw [ho] at h1; simp at h1
        | some o =>
          rw [ho] at h1
          simp at h1
          rw [h1]
      obtain ⟨msg, dId, he, hm, hsc, hig, hrj, hwn⟩ := step_rejectedMsg hsome
      exact ⟨msg, dId, by simp [he], hm, hsc, hig, hrj, hwn⟩
    · obtain ⟨msg, dId, hin, hm, hsc, hig, hrj, hwn⟩ := ih (step s e).1 m h2
      rw [step_orderId] at hsc
      exact ⟨msg, dId, by simp [hin], hm, hsc, hig, hrj, hwn⟩

/-- C4 counterexample: a post-submission condition — an unclassified error
event scoped to the order — settles the promise by rejection, so rejection
is not limited to pre-flight failures. -/
theorem c4_counterexample :
    (runT (initState 7) [TEvent.error "Order processing failed" (some 7)]).2 =
      [TOutput.rejectedMsg "Order processing failed"] := by decide

/-- C4 (amended): the promise rejects only on a pre-flight failure (broker
client absent or not connected → `Not connected`; id allocation timing out
→ `Timeout getting order ID`) or on a post-submission error event that is
scoped to the order (or unscoped), not ignorable, and matches no rejection
or warning pattern; status events and the 30-second timeout never cause a
rejection. -/
theorem c4_reject_sources :
    (∀ (clientPresent connected : Bool) (idAlloc : Option Int) (msg : String),
        submitPreflight clientPresent connected idAlloc = Except.error msg →
        msg = "Not connected" ∨ msg = "Timeout getting order ID") ∧
    (∀ (oid : Int) (tr : List TEvent) (m : String),
        TOutput.rejectedMsg m ∈ (runT (initState oid) tr).2 →
        ∃ msg dId, TEvent.error msg dId ∈ tr ∧ m = errMsg msg ∧
          errScoped oid dId = true ∧
          isIgnorableMessage (errMsg msg) = false ∧
          extractRejection (errMsg msg) = none ∧
          extractWarning (errMsg msg) = none) := by
  constructor
  · intro cp conn idAlloc msg h
    unfold submitPreflight at h
    split at h
    · injection h with h'
      exact Or.inl h'.symm
    · cases idAlloc with
      | none =>
        injection h with h'
        exact Or.inr h'.symm
      | some i => cases h
  · intro oid tr m hmem
    simpa [initState] using runT_rejectedMsg tr (initState oid) m hmem

/-- Witness for C4 (amended) at a concrete unclassified scoped error. -/
theorem c4_witness :
    (TOutput.rejectedMsg "Boom" ∈
      (runT (initState 9) [TEvent.error "Boom" (some 9)]).2) ∧
    (∃ msg dId, TEvent.error msg dId ∈ [TEvent.error "Boom" (some 9)] ∧
      "Boom" = errMsg msg ∧ errScoped 9 dId = true ∧
      isIgnorableMessage (errMsg msg) = false ∧
      extractRejection (errMsg msg) = none ∧
      extractWarning (errMsg msg) = none) :=
  ⟨by decide,
   c4_reject_sources.2 9 [TEvent.error "Boom" (some 9)] "Boom" (by decide)⟩

/-! ## JS `Map` as an association list

`Map.set` updates the value in place if the key exists (keeping the original
position) and appends otherwise; `Map.delete` removes the entry;
`Array.from(map.values())` lists values in first-insertion order. -/

section AListLib

variable {κ : Type} [DecidableEq κ] {α : Type}

/-- JS `Map.set`. -/
def upsertA : List (κ × α) → κ → α → List (κ × α)
  | [], k, v => [(k, v)]
  | (k', v') :: rest, k, v =>
    if k' = k then (k, v) :: rest else (k', v') :: upsertA rest k v

/-- JS `Map.get` (as an `Option`). -/
def lookupA : List (κ × α) → κ → Option α
  | [], _ => none
  | (k', v') :: rest, k => if k' = k then some v' else lookupA rest k

def keysA (m : List (κ × α)) : List κ := m.map Prod.fst

/-- JS `Map.delete`. -/
def eraseKeyA (m : List (κ × α)) (k : κ) : List (κ × α) :=
  m.filter (fun p => decide (p.1 ≠ k))

theorem lookupA_upsertA_self (m : List (κ × α)) (k : κ) (v : α) :
    lookupA (upsertA m k v) k = some v := by
  induction m with
  | nil => simp [upsertA, lookupA]
  | cons p rest ih =>
    obtain ⟨k', v'⟩ := p
    by_cases h : k' = k
    · simp [upsertA, h, lookupA]
    · simp [upsertA, h, lookupA, ih]

theorem lookupA_upsertA_ne (m : List (κ × α)) (k : κ) (v : α) (k' : κ)
    (h : k' ≠ k) : lookupA (upsertA m k v) k' = lookupA m k' := by
  induction m with
  | nil => simp [upsertA, lookupA, Ne.symm h]
  | cons p rest ih =>
    obtain ⟨k0, v0⟩ := p
    by_cases h0 : k0 = k
    · subst h0
      simp [upsertA, lookupA, Ne.symm h]
    · by_cases h1 : k0 = k'
      · simp [upsertA, h0, lookupA, h1, h]
      · simp [upsertA, h0, lookupA, h1, ih]

theorem mem_keysA_upsertA {m : List (κ × α)} {k : κ} {v : α} {k' : κ} :
    k' ∈ keysA (upsertA m k v) ↔ k' ∈ keysA m ∨ k' = k := by
  induction m with
  | nil => simp [upsertA, keysA]
  | cons p rest ih =>
    obtain ⟨k0, v0⟩ := p
    by_cases h0 : k0 = k
    · subst h0
      simp [upsertA, keysA, List.mem_cons]
      tauto
    · simp only [upsertA, if_neg h0, keysA, List.map_cons, List.mem_cons] at ih ⊢
      rw [ih]
      tauto

theorem keysA_nodup_upsertA {m : List (κ × α)} {k : κ} {v : α}
    (h : (keysA m).Nodup) : (keysA (upsertA m k v)).Nodup := by
  induction m with
  | nil => simp [upsertA, keysA]
  | cons p rest ih =>
    obtain ⟨k0, v0⟩ := p
    simp only [keysA, List.map_cons, List.nodup_cons] at h
    by_cases h0 : k0 = k
    · subst h0
      simpa [upsertA, keysA, List.nodup_cons] using h
    · simp only [upsertA, if_neg h0, keysA, List.map_cons, List.nodup_cons]
      refine ⟨?_, ih h.2⟩
      intro hmem
      rcases mem_keysA_upsertA.mp hmem with hm | rfl
      · exact h.1 hm
      · exact h0 rfl

theorem mem_upsertA {m : List (κ × α)} {k : κ} {v : α} {p : κ × α}
    (h : p ∈ upsertA m k v) : p ∈ m ∨ p = (k, v) := by
  induction m with
  | nil => simpa [upsertA] using h
  | cons q rest ih =>
    obtain ⟨k0, v0⟩ := q
    by_cases h0 : k0 = k
    · subst h0
      rcases (by simpa [upsertA] using h : p = (k0, v) ∨ p ∈ rest) with rfl | hm
      · exact Or.inr rfl
      · exact Or.inl (List.mem_cons_of_mem _ hm)
    · rcases (by simpa [upsertA, h0] using h : p = (k0, v0) ∨ p ∈ upsertA rest k v)
        with rfl | hm
      · exact Or.inl (List.mem_cons_self _ _)
      · rcases ih hm with hm' | rfl
        · exact Or.inl (List.mem_cons_of_mem _ hm')
        · exact Or.inr rfl

theorem lookupA_eq_none_iff {m : List (κ × α)} {k : κ} :
    lookupA m k = none ↔ k ∉ keysA m := by
  induction m with
  | nil => simp [lookupA, keysA]
  | cons p rest ih =>
    obtain ⟨k0, v0⟩ := p
    by_cases h0 : k0 = k
    · subst h0
      simp [lookupA, keysA]
    · simp [lookupA, keysA, h0, ih, Ne.symm h0]

theorem mem_of_lookupA {m : List (κ × α)} {k : κ} {v : α}
    (h : lookupA m k = some v) : (k, v) ∈ m := by
  induction m with
  | nil => simp [lookupA] at h
  | cons p rest ih =>
    obtain ⟨k0, v0⟩ := p
    by_cases h0 : k0 = k
    · subst h0
      simp only [lookupA, eq_self_iff_true, if_true, Option.some.injEq] at h
      subst h
      exact List.mem_cons_self _ _
    · simp only [lookupA, if_neg h0] at h
      exact List.mem_cons_of_mem _ (ih h)

theorem lookupA_of_mem_nodup {m : List (κ × α)} {k : κ} {v : α}
    (hnd : (keysA m).Nodup) (h : (k, v) ∈ m) : lookupA m k = some v := by
  induction m with
  | nil => simp at h
  | cons p rest ih =>
    obtain ⟨k0, v0⟩ := p
    simp only [keysA, List.map_cons, List.nodup_cons] at hnd
    rcases List.mem_cons.mp h with heq | hm
    · obtain ⟨rfl, rfl⟩ := Prod.mk.injEq .. ▸ heq
      simp [lookupA]
    · have hk : k0 ≠ k := by
        rintro rfl
        exact hnd.1 (by simpa [keysA] using List.mem_map_of_mem Prod.fst hm)
      simp [lookupA, hk, ih hnd.2 hm]

theorem lookupA_eraseKeyA_self (m : List (κ × α)) (k : κ) :
    lookupA (eraseKeyA m k) k = none := by
  induction m with
  | nil => rfl
  | cons p rest ih =>
    obtain ⟨k0, v0⟩ := p
    by_cases h0 : k0 = k
    · simpa [eraseKeyA, h0] using ih
    · simpa [eraseKeyA, lookupA, h0] using ih

/-- Every entry's value carries its own key (e.g. a record stored under its
`id`). -/
def IdConsistent (idOf : α → κ) (m : List (κ × α)) : Prop :=
  ∀ p ∈ m, idOf p.2 = p.1

theorem keysA_eq_map_values {idOf : α → κ} {m : List (κ × α)}
    (hic : IdConsistent idOf m) :
    keysA m = (m.map Prod.snd).map idOf := by
  induction m with
  | nil => rfl
  | cons p rest ih =>
    obtain ⟨k0, v0⟩ := p
    have h0 := hic (k0, v0) (List.mem_cons_self _ _)
    simp only at h0
    simp only [keysA, List.map_cons] at ih ⊢
    rw [ih (fun q hq => hic q (List.mem_cons_of_mem _ hq)), h0]

theorem values_mem_iff {idOf : α → κ} {m : List (κ × α)}
    (hnd : (keysA m).Nodup) (hic : IdConsistent idOf m) {v : α} :
    v ∈ m.map Prod.snd ↔ lookupA m (idOf v) = some v := by
  constructor
  · intro hv
    obtain ⟨p, hp, hpv⟩ := List.mem_map.mp hv
    obtain ⟨pk, pv⟩ := p
    simp only at hpv
    subst hpv
    have hk := hic (pk, pv) hp
    simp only at hk
    subst hk
    exact lookupA_of_mem_nodup hnd hp
  · intro hl
    exact List.mem_map.mpr ⟨(idOf v, v), mem_of_lookupA hl, rfl⟩

theorem values_pairwise_ne {idOf : α → κ} {m : List (κ × α)}
    (hnd : (keysA m).Nodup) (hic : IdConsistent idOf m) :
    (m.map Prod.snd).Pairwise (fun a b => idOf a ≠ idOf b) := by
  rw [keysA_eq_map_values hic] at hnd
  exact (List.pairwise_map).mp hnd

theorem values_nodup {idOf : α → κ} {m : List (κ × α)}
    (hnd : (keysA m).Nodup) (hic : IdConsistent idOf m) :
    (m.map Prod.snd).Nodup := by
  rw [keysA_eq_map_values hic] at hnd
  exact List.Nodup.of_map idOf hnd

end AListLib

/-! ## Trade History Store (`useExecutionHistory`) -/

/-- A raw execution object as passed to `normalizeExec` (fields may be
missing/empty). -/
structure ExecInput where
  id : Option String
  execId : Option String
  symbol : Option String
  side : Option String
  quantity : Option ℚ
  price : Option ℚ
  time : Option String
  orderId : Option Int
  deriving DecidableEq, Repr

/-- A normalized trade-ledger record (`normalizeExec`'s non-null result):
a non-empty string id plus the copied fields. -/
structure ExecRec where
  id : String
  symbol : Option String
  side : Option String
  quantity : Option ℚ
  price : Option ℚ
  time : Option String
  orderId : Option Int
  deriving DecidableEq, Repr

/-- JS `a || b` on optional strings (an empty string is falsy). -/
def jsOrStr (a b : Option String) : Option String :=
  match a with
  | some s => if s = "" then b else some s
  | none => b

/-- `normalizeExec(e)`: `const id = e?.id || e?.execId; if (!id) return null;`
then copy the fields with `String(id)` as the key. -/
def normalizeExec (e : ExecInput) : Option ExecRec :=
  match jsOrStr e.id e.execId with
  | none => none
  | some s =>
    if s = "" then none
    else some ⟨s, e.symbol, e.side, e.quantity, e.price, e.time, e.orderId⟩

/-- View a stored record as an input again (re-merging `prev` in
`appendExecution`: the stored objects have `id` set). -/
def toInput (r : ExecRec) : ExecInput :=
  ⟨some r.id, none, r.symbol, r.side, r.quantity, r.price, r.time, r.orderId⟩

/-- One pass of `mergeUniqueById`'s loop: insert each normalizable element
into the JS `Map` keyed by id (last write for an id wins, first-insertion
position kept). -/
def insertExecs (m : List (String × ExecRec)) (l : List ExecInput) :
    List (String × ExecRec) :=
  l.foldl (fun acc e =>
    match normalizeExec e with
    | some n => upsertA acc n.id n
    | none => acc) m

/-- Lexicographic string comparison on character lists (the embedding of
the comparator's `localeCompare(...) <= 0`). -/
def strLeb : List Char → List Char → Bool
  | [], _ => true
  | _ :: _, [] => false
  | c :: as, d :: bs => if c = d then strLeb as bs else decide (c < d)

theorem strLeb_refl : ∀ a : List Char, strLeb a a = true
  | [] => rfl
  | c :: as => by simp [strLeb, strLeb_refl as]

theorem strLeb_total : ∀ a b : List Char, strLeb a b = true ∨ strLeb b a = true
  | [], _ => Or.inl rfl
  | _ :: _, [] => Or.inr rfl
  | c :: as, d :: bs => by
    by_cases h : c = d
    · subst h
      simpa [strLeb] using strLeb_total as bs
    · rcases lt_trichotomy c d with hlt | heq | hgt
      · exact Or.inl (by simp [strLeb, h, hlt])
      · exact absurd heq h
      · exact Or.inr (by simp [strLeb, Ne.symm h, hgt])

theorem strLeb_trans :
    ∀ a b c : List Char,
      strLeb a b = true → strLeb b c = true → strLeb a c = true
  | [], _, _, _, _ => rfl
  | x :: as, [], _, hab, _ => by simp [strLeb] at hab
  | x :: as, y :: bs, [], _, hbc => by simp [strLeb] at hbc
  | x :: as, y :: bs, z :: cs, hab, hbc => by
    by_cases hxy : x = y
    · subst hxy
      by_cases hyz : x = z
      · subst hyz
        simp only [strLeb, if_pos rfl] at hab hbc ⊢
        exact strLeb_trans as bs cs hab hbc
      · simpa [strLeb, hyz] using (by simpa [strLeb, hyz] using hbc)
    · by_cases hyz : y = z
      · subst hyz
        simpa [strLeb, hxy] using (by simpa [strLeb, hxy] using hab)
      · have h1 : x < y := by simpa [strLeb, hxy] using hab
        have h2 : y < z := by simpa [strLeb, hyz] using hbc
        have hxz : x ≠ z := fun h => absurd (h ▸ h1.trans h2) (lt_irrefl _)
        simp [strLeb, hxz, h1.trans h2]

theorem strLeb_antisymm :
    ∀ a b : List Char, strLeb a b = true → strLeb b a = true → a = b
  | [], [], _, _ => rfl
  | [], _ :: _, _, hba => by simp [strLeb] at hba
  | _ :: _, [], hab, _ => by simp [strLeb] at hab
  | c :: as, d :: bs, hab, hba => by
    by_cases h : c = d
    · subst h
      simp only [strLeb, if_pos rfl] at hab hba
      rw [strLeb_antisymm as bs hab hba]
    · have h1 : c < d := by simpa [strLeb, h] using hab
      have h2 : d < c := by simpa [strLeb, Ne.symm h] using hba
      exact absurd (h1.trans h2) (lt_irrefl _)

/-- The time sort key: `a.time || ''`, as characters. -/
def timeKey (r : ExecRec) : List Char := (r.time.getD "").data

/-- The comparator of `mergeUniqueById`'s final sort, as a relation:
ascending by time string (a missing time compares as `""`), then by id when
times tie. -/
def recLE (a b : ExecRec) : Prop :=
  if timeKey a = timeKey b then strLeb a.id.data b.id.data = true
  else strLeb (timeKey a) (timeKey b) = true

instance : DecidableRel recLE := fun a b => by
  unfold recLE
  infer_instance

instance : IsTotal ExecRec recLE :=
  ⟨fun a b => by
    unfold recLE
    by_cases h : timeKey a = timeKey b
    · simpa [h] using strLeb_total a.id.data b.id.data
    · simpa [h, Ne.symm h] using strLeb_total (timeKey a) (timeKey b)⟩

instance : IsTrans ExecRec recLE :=
  ⟨fun a b c hab hbc => by
    unfold recLE at hab hbc ⊢
    by_cases h1 : timeKey a = timeKey b <;> by_cases h2 : timeKey b = timeKey c
    · rw [if_pos h1] at hab
      rw [if_pos h2] at hbc
      rw [if_pos (h1.trans h2)]
      exact strLeb_trans _ _ _ hab hbc
    · rw [if_pos h1] at hab
      rw [if_neg h2] at hbc
      rw [if_neg (h1 ▸ h2), h1]
      exact hbc
    · rw [if_neg h1] at hab
      rw [if_pos h2] at hbc
      rw [if_neg (h2 ▸ h1), ← h2]
      exact hab
    · rw [if_neg h1] at hab
      rw [if_neg h2] at hbc
      have h3 : timeKey a ≠ timeKey c := by
        intro heq
        exact h1 (strLeb_antisymm _ _ hab (heq ▸ hbc))
      rw [if_neg h3]
      exact strLeb_trans _ _ _ hab hbc⟩

/-- `mergeUniqueById(existing, incoming)`: normalize and upsert both lists
into an id-keyed map, then sort the values by (time, id). -/
def mergeUniqueById (existing incoming : List ExecInput) : List ExecRec :=
  List.insertionSort recLE
    ((insertExecs (insertExecs [] existing) incoming).map Prod.snd)

/-- The state of `useExecutionHistory` relevant to appends: the known-ids
set (`knownIdsRef`) and the in-memory ledger (`allExecutions`). -/
structure ExecState where
  knownIds : List String
  all : List ExecRec
  deriving DecidableEq, Repr

/-- `appendExecution(exec)`: normalize; return unchanged if the record is
not normalizable or its id is already known; otherwise record the id and
merge the single record into the ledger. -/
def appendExecution (s : ExecState) (e : ExecInput) : ExecState :=
  match normalizeExec e with
  | none => s
  | some n =>
    if n.id ∈ s.knownIds then s
    else ⟨n.id :: s.knownIds, mergeUniqueById (s.all.map toInput) [toInput n]⟩

/-- The last normalized record in `l` whose id is `k` (trace-level
recomputation of the map's final value at key `k`). -/
def lastNormAux : List ExecInput → String → Option ExecRec
  | [], _ => none
  | e :: l, k =>
    match lastNormAux l k with
    | some n => some n
    | none =>
      match normalizeExec e with
      | some n => if n.id = k then some n else none
      | none => none

/-- First-some choice on options. -/
def orElseO {α : Type} (a b : Option α) : Option α :=
  match a with
  | some x => some x
  | none => b

theorem lookupA_insertExecs :
    ∀ (l : List ExecInput) (m : List (String × ExecRec)) (k : String),
      lookupA (insertExecs m l) k = orElseO (lastNormAux l k) (lookupA m k) := by
  intro l
  induction l with
  | nil => intro m k; rfl
  | cons e l ih =>
    intro m k
    have hcons : insertExecs m (e :: l) =
        insertExecs (match normalizeExec e with
          | some n => upsertA m n.id n
          | none => m) l := rfl
    rw [hcons, ih]
    cases hlast : lastNormAux l k with
    | some n => simp [lastNormAux, hlast, orElseO]
    | none =>
      cases hne : normalizeExec e with
      | none => simp [lastNormAux, hlast, hne, orElseO]
      | some n =>
        by_cases hid : n.id = k
        · subst hid
          simp [lastNormAux, hlast, hne, orElseO, lookupA_upsertA_self]
        · simp [lastNormAux, hlast, hne, orElseO, hid,
            lookupA_upsertA_ne m n.id n k (fun h => hid h.symm)]

theorem keysA_nodup_insertExecs :
    ∀ (l : List ExecInput) (m : List (String × ExecRec)),
      (keysA m).Nodup → (keysA (insertExecs m l)).Nodup := by
  intro l
  induction l with
  | nil => intro m h; exact h
  | cons e l ih =>
    intro m h
    cases hne : normalizeExec e with
    | none =>
      have : insertExecs m (e :: l) = insertExecs m l := by
        simp [insertExecs, hne]
      rw [this]; exact ih m h
    | some n =>
      have : insertExecs m (e :: l) = insertExecs (upsertA m n.id n) l := by
        simp [insertExecs, hne]
      rw [this]
      exact ih _ (keysA_nodup_upsertA h)

theorem idcons_insertExecs :
    ∀ (l : List ExecInput) (m : List (String × ExecRec)),
      IdConsistent ExecRec.id m → IdConsistent ExecRec.id (insertExecs m l) := by
  intro l
  induction l with
  | nil => intro m h; exact h
  | cons e l ih =>
    intro m h
    cases hne : normalizeExec e with
    | none =>
      have : insertExecs m (e :: l) = insertExecs m l := by
        simp [insertExecs, hne]
      rw [this]; exact ih m h
    | some n =>
      have heq : insertExecs m (e :: l) = insertExecs (upsertA m n.id n) l := by
        simp [insertExecs, hne]
      rw [heq]
      refine ih _ ?_
      intro p hp
      rcases mem_upsertA hp with hm | rfl
      · exact h p hm
      · rfl

theorem source_insertExecs :
    ∀ (l : List ExecInput) (m : List (String × ExecRec)) (p : String × ExecRec),
      p ∈ insertExecs m l → p ∈ m ∨ ∃ e ∈ l, normalizeExec e = some p.2 := by
  intro l
  induction l with
  | nil => intro m p hp; exact Or.inl hp
  | cons e l ih =>
    intro m p hp
    cases hne : normalizeExec e with
    | none =>
      have : insertExecs m (e :: l) = insertExecs m l := by
        simp [insertExecs, hne]
      rw [this] at hp
      rcases ih m p hp with hm | ⟨e', he', hn⟩
      · exact Or.inl hm
      · exact Or.inr ⟨e', List.mem_cons_of_mem _ he', hn⟩
    | some n =>
      have heq : insertExecs m (e :: l) = insertExecs (upsertA m n.id n) l := by
        simp [insertExecs, hne]
      rw [heq] at hp
      rcases ih _ p hp with hm | ⟨e', he', hn⟩
      · rcases mem_upsertA hm with hm' | rfl
        · exact Or.inl hm'
        · exact Or.inr ⟨e, List.mem_cons_self _ _, hne⟩
      · exact Or.inr ⟨e', List.mem_cons_of_mem _ he', hn⟩

theorem lookupA_nil (k : String) : lookupA ([] : List (String × ExecRec)) k = none := rfl

/-- C5: the trade-ledger merge is idempotent — merging a list with itself
yields the same set as merging the empty list with it — and for every pair
of inputs the output has at most one record per id, contains only records
normalized from the inputs (records lacking a stable id are dropped), and
is sorted ascending by time string, then by id when times tie. -/
theorem c5_merge_props :
    (∀ L : List ExecInput,
        (mergeUniqueById L L).toFinset = (mergeUniqueById [] L).toFinset) ∧
    (∀ L1 L2 : List ExecInput,
        (mergeUniqueById L1 L2).Pairwise (fun a b => a.id ≠ b.id) ∧
        (∀ r ∈ mergeUniqueById L1 L2, ∃ e ∈ L1 ++ L2, normalizeExec e = some r) ∧
        (mergeUniqueById L1 L2).Sorted recLE) := by
  have hnd : ∀ (L1 L2 : List ExecInput),
      (keysA (insertExecs (insertExecs [] L1) L2)).Nodup := by
    intro L1 L2
    exact keysA_nodup_insertExecs L2 _
      (keysA_nodup_insertExecs L1 [] (by simp [keysA]))
  have hic : ∀ (L1 L2 : List ExecInput),
      IdConsistent ExecRec.id (insertExecs (insertExecs [] L1) L2) := by
    intro L1 L2
    exact idcons_insertExecs L2 _
      (idcons_insertExecs L1 [] (by intro p hp; simp at hp))
  constructor
  · intro L
    have hndB : (keysA (insertExecs [] L)).Nodup :=
      keysA_nodup_insertExecs L [] (by simp [keysA])
    have hicB : IdConsistent ExecRec.id (insertExecs [] L) :=
      idcons_insertExecs L [] (by intro p hp; simp at hp)
    have hlk : ∀ k, lookupA (insertExecs (insertExecs [] L) L) k =
        lookupA (insertExecs [] L) k := by
      intro k
      rw [lookupA_insertExecs, lookupA_insertExecs, lookupA_nil]
      cases lastNormAux L k <;> simp [orElseO]
    have hmem : ∀ v, v ∈ (insertExecs (insertExecs [] L) L).map Prod.snd ↔
        v ∈ (insertExecs [] L).map Prod.snd := by
      intro v
      rw [values_mem_iff (hnd L L) (hic L L), values_mem_iff hndB hicB, hlk]
    have hperm : List.Perm ((insertExecs (insertExecs [] L) L).map Prod.snd)
        ((insertExecs [] L).map Prod.snd) :=
      (List.perm_ext_iff_of_nodup
        (values_nodup (hnd L L) (hic L L))
        (values_nodup hndB hicB)).mpr hmem
    have hfin : List.Perm (mergeUniqueById L L) (mergeUniqueById [] L) :=
      (List.perm_insertionSort recLE _).trans
        (hperm.trans (List.perm_insertionSort recLE _).symm)
    exact List.toFinset_eq_of_perm _ _ hfin
  · intro L1 L2
    refine ⟨?_, ?_, List.sorted_insertionSort recLE _⟩
    · have hvals := values_pairwise_ne (hnd L1 L2) (hic L1 L2)
      have hsymm : Symmetric (fun a b : ExecRec => ExecRec.id a ≠ ExecRec.id b) :=
        fun x y h => Ne.symm h
      exact ((List.perm_insertionSort recLE _).pairwise_iff @hsymm).mpr hvals
    · intro r hr
      have hr' : r ∈ (insertExecs (insertExecs [] L1) L2).map Prod.snd := by
        rw [← List.mem_insertionSort recLE]
        exact hr
      obtain ⟨p, hp, hpv⟩ := List.mem_map.mp hr'
      rcases source_insertExecs L2 _ p hp with hm | ⟨e', he', hn⟩
      · rcases source_insertExecs L1 [] p hm with hnil | ⟨e', he', hn⟩
        · simp at hnil
        · exact ⟨e', List.mem_append.mpr (Or.inl he'), hpv ▸ hn⟩
      · exact ⟨e', List.mem_append.mpr (Or.inr he'), hpv ▸ hn⟩

/-- Witness for C5 at concrete ledgers. -/
theorem c5_witness :
    ((mergeUniqueById
        [⟨some "E1", none, some "TSLA", some "BOT", some 5, some 100, some "20240101 10:00:00", some 1⟩]
        [⟨some "E1", none, some "TSLA", some "BOT", some 5, some 100, some "20240101 10:00:00", some 1⟩]).toFinset =
      (mergeUniqueById []
        [⟨some "E1", none, some "TSLA", some "BOT", some 5, some 100, some "20240101 10:00:00", some 1⟩]).toFinset) ∧
    (∃ e ∈ ([⟨some "E1", none, some "TSLA", some "BOT", some 5, some 100, some "20240101 10:00:00", some 1⟩] ++
        [⟨some "E2", none, some "AAPL", some "SLD", some 2, some 50, some "20240101 09:00:00", some 2⟩] :
          List ExecInput),
      normalizeExec e =
        some ⟨"E2", some "AAPL", some "SLD", some 2, some 50, some "20240101 09:00:00", some 2⟩) :=
  ⟨c5_merge_props.1
      [⟨some "E1", none, some "TSLA", some "BOT", some 5, some 100, some "20240101 10:00:00", some 1⟩],
   (c5_merge_props.2
      [⟨some "E1", none, some "TSLA", some "BOT", some 5, some 100, some "20240101 10:00:00", some 1⟩]
      [⟨some "E2", none, some "AAPL", some "SLD", some 2, some 50, some "20240101 09:00:00", some 2⟩]).2.1
      ⟨"E2", some "AAPL", some "SLD", some 2, some 50, some "20240101 09:00:00", some 2⟩
      (by decide)⟩

/-- C3 counterexample: appending a second trade with the same execution id
`X1` but price 20 leaves the ledger holding the FIRST record (price 10) —
the append is an idempotent skip, not last-write-wins. -/
theorem c3_counterexample :
    ((appendExecution (appendExecution ⟨[], []⟩
        ⟨some "X1", none, some "AAPL", some "BOT", some 1, some 10, some "t1", some 1⟩)
        ⟨some "X1", none, some "AAPL", some "BOT", some 1, some 20, some "t1", some 2⟩).all.length = 1) ∧
    ((appendExecution (appendExecution ⟨[], []⟩
        ⟨some "X1", none, some "AAPL", some "BOT", some 1, some 10, some "t1", some 1⟩)
        ⟨some "X1", none, some "AAPL", some "BOT", some 1, some 20, some "t1", some 2⟩).all.map
      ExecRec.price = [some 10]) ∧
    ¬ ((appendExecution (appendExecution ⟨[], []⟩
        ⟨some "X1", none, some "AAPL", some "BOT", some 1, some 10, some "t1", some 1⟩)
        ⟨some "X1", none, some "AAPL", some "BOT", some 1, some 20, some "t1", some 2⟩).all.map
      ExecRec.price = [some 20]) := by decide

/-- C3 (amended): appending a record whose execution id is already known is
a complete no-op — the ledger length is unchanged and the first-appended
record's field values are retained (the duplicate is skipped, not
overwritten). -/
theorem c3_append_dup_noop (s : ExecState) (e : ExecInput) (n : ExecRec)
    (h1 : normalizeExec e = some n) (h2 : n.id ∈ s.knownIds) :
    appendExecution s e = s := by
  unfold appendExecution
  rw [h1]
  simp [h2]

/-- Witness for C3 (amended) at a concrete duplicate append. -/
theorem c3_witness :
    (normalizeExec
        ⟨some "X1", none, some "AAPL", some "BOT", some 1, some 20, some "t1", some 2⟩ =
      some ⟨"X1", some "AAPL", some "BOT", some 1, some 20, some "t1", some 2⟩) ∧
    ("X1" ∈ (⟨["X1"],
        [⟨"X1", some "AAPL", some "BOT", some 1, some 10, some "t1", some 1⟩]⟩ :
          ExecState).knownIds) ∧
    (appendExecution
        ⟨["X1"], [⟨"X1", some "AAPL", some "BOT", some 1, some 10, some "t1", some 1⟩]⟩
        ⟨some "X1", none, some "AAPL", some "BOT", some 1, some 20, some "t1", some 2⟩ =
      ⟨["X1"], [⟨"X1", some "AAPL", some "BOT", some 1, some 10, some "t1", some 1⟩]⟩) :=
  ⟨by decide, by decide,
   c3_append_dup_noop
     ⟨["X1"], [⟨"X1", some "AAPL", some "BOT", some 1, some 10, some "t1", some 1⟩]⟩
     ⟨some "X1", none, some "AAPL", some "BOT", some 1, some 20, some "t1", some 2⟩
     ⟨"X1", some "AAPL", some "BOT", some 1, some 20, some "t1", some 2⟩
     (by decide) (by decide)⟩

/-! ## Portfolio value ledger (`usePortfolioHistory`) -/

/-- A normalized portfolio sample: epoch-ms timestamp, net liquidation and
cash (or null). -/
structure PPoint where
  ts : Int
  netLiquidation : ℚ
  cash : Option ℚ
  deriving DecidableEq, Repr

/-- A raw point as read from disk or built by the caller; `none` models a
missing or non-finite number (which `normalizePoint` drops). -/
structure RawPoint where
  ts : Option Int
  netLiquidation : Option ℚ
  cash : Option ℚ
  deriving DecidableEq, Repr

/-- `normalizePoint(p)`: drop the point unless `ts` and `netLiquidation`
are finite numbers; a missing or non-finite `cash` becomes `null`. -/
def normalizePoint (p : RawPoint) : Option PPoint :=
  match p.ts, p.netLiquidation with
  | some t, some nl => some ⟨t, nl, p.cash⟩
  | _, _ => none

/-- Ascending-timestamp comparator of `dedupeAndSort`'s final sort. -/
def ptLE (a b : PPoint) : Prop := a.ts ≤ b.ts

instance : DecidableRel ptLE := fun a b => by
  unfold ptLE
  infer_instance

instance : IsTotal PPoint ptLE := ⟨fun a b => Int.le_total a.ts b.ts⟩

instance : IsTrans PPoint ptLE := ⟨fun _ _ _ h1 h2 => le_trans h1 h2⟩

/-- The ts-keyed `Map` built by `dedupeAndSort`'s loop (last write for a
given timestamp wins). -/
def insertPoints (m : List (Int × PPoint)) (l : List RawPoint) :
    List (Int × PPoint) :=
  l.foldl (fun acc p =>
    match normalizePoint p with
    | some n => upsertA acc n.ts n
    | none => acc) m

/-- `dedupeAndSort(points)`. -/
def dedupeAndSort (points : List RawPoint) : List PPoint :=
  List.insertionSort ptLE ((insertPoints [] points).map Prod.snd)

/-- The in-memory updater of `appendPoint`'s `setHistory` call: skip when
the new timestamp equals the LAST element's, else push and trim the front
to 50,000 entries. -/
def appendPointUpdate (prev : List PPoint) (p : RawPoint) : List PPoint :=
  match normalizePoint p with
  | none => prev
  | some n =>
    if prev.getLast?.map PPoint.ts = some n.ts then prev
    else
      if (prev ++ [n]).length > 50000 then
        (prev ++ [n]).drop ((prev ++ [n]).length - 50000)
      else prev ++ [n]

/-- The recording effect of `usePortfolioHistory`: given connection/load
state, the current account numbers, the clock and the last recorded sample,
return the point persisted by this pass, if any. The throttle skips the
sample when less than 5 minutes (300000 ms) elapsed AND the net liquidation
moved strictly less than `max(50, |last| * 0.001)`. -/
def recordEffect (isConnected loaded : Bool) (netLiquidation : Option ℚ)
    (cash : Option ℚ) (now : Int) (last : Option PPoint) : Option PPoint :=
  if !isConnected then none
  else
    match netLiquidation with
    | none => none
    | some nl =>
      if nl ≤ 0 then none
      else if !loaded then none
      else
        match last with
        | none => some ⟨now, nl, cash⟩
        | some l =>
          if now - l.ts < 300000 ∧
              |nl - l.netLiquidation| < max 50 (|l.netLiquidation| / 1000) then
            none
          else some ⟨now, nl, cash⟩

/-- The last normalized point in `l` with timestamp `k`. -/
def lastPtAux : List RawPoint → Int → Option PPoint
  | [], _ => none
  | p :: l, k =>
    match lastPtAux l k with
    | some n => some n
    | none =>
      match normalizePoint p with
      | some n => if n.ts = k then some n else none
      | none => none

theorem lookupA_insertPoints :
    ∀ (l : List RawPoint) (m : List (Int × PPoint)) (k : Int),
      lookupA (insertPoints m l) k = orElseO (lastPtAux l k) (lookupA m k) := by
  intro l
  induction l with
  | nil => intro m k; rfl
  | cons p l ih =>
    intro m k
    have hcons : insertPoints m (p :: l) =
        insertPoints (match normalizePoint p with
          | some n => upsertA m n.ts n
          | none => m) l := rfl
    rw [hcons, ih]
    cases hlast : lastPtAux l k with
    | some n => simp [lastPtAux, hlast, orElseO]
    | none =>
      cases hne : normalizePoint p with
      | none => simp [lastPtAux, hlast, hne, orElseO]
      | some n =>
        by_cases hid : n.ts = k
        · subst hid
          simp [lastPtAux, hlast, hne, orElseO, lookupA_upsertA_self]
        · simp [lastPtAux, hlast, hne, orElseO, hid,
            lookupA_upsertA_ne m n.ts n k (fun h => hid h.symm)]

theorem keysA_nodup_insertPoints :
    ∀ (l : List RawPoint) (m : List (Int × PPoint)),
      (keysA m).Nodup → (keysA (insertPoints m l)).Nodup := by
  intro l
  induction l with
  | nil => intro m h; exact h
  | cons p l ih =>
    intro m h
    cases hne : normalizePoint p with
    | none =>
      have : insertPoints m (p :: l) = insertPoints m l := by
        simp [insertPoints, hne]
      rw [this]; exact ih m h
    | some n =>
      have : insertPoints m (p :: l) = insertPoints (upsertA m n.ts n) l := by
        simp [insertPoints, hne]
      rw [this]
      exact ih _ (keysA_nodup_upsertA h)

theorem tscons_insertPoints :
    ∀ (l : List RawPoint) (m : List (Int × PPoint)),
      IdConsistent PPoint.ts m → IdConsistent PPoint.ts (insertPoints m l) := by
  intro l
  induction l with
  | nil => intro m h; exact h
  | cons p l ih =>
    intro m h
    cases hne : normalizePoint p with
    | none =>
      have : insertPoints m (p :: l) = insertPoints m l := by
        simp [insertPoints, hne]
      rw [this]; exact ih m h
    | some n =>
      have heq : insertPoints m (p :: l) = insertPoints (upsertA m n.ts n) l := by
        simp [insertPoints, hne]
      rw [heq]
      refine ih _ ?_
      intro q hq
      rcases mem_upsertA hq with hm | rfl
      · exact h q hm
      · rfl

/-- C8 counterexample: with the last sample at net liquidation 10000 and a
new value 10050 one second later, the move equals the threshold
`max(50, 10000 * 0.001) = 50` exactly — the value has not moved by MORE
than the threshold and 5 minutes have not elapsed, yet the code persists
the sample (its skip condition is strict `<`). The arithmetic here is exact
in the source's float semantics as well. -/
theorem c8_counterexample :
    ((1000 : Int) - 0 < 300000) ∧
    (|(10050 : ℚ) - 10000| ≤ max 50 (|(10000 : ℚ)| / 1000)) ∧
    recordEffect true true (some 10050) none 1000 (some ⟨0, 10000, none⟩) =
      some ⟨1000, 10050, none⟩ := by
  refine ⟨by norm_num, by norm_num, ?_⟩
  unfold recordEffect
  norm_num

/-- C8 (amended): for a connected, loaded session with a last recorded
sample and a positive net-liquidation reading, the new sample is skipped
iff less than 5 minutes have elapsed AND the value moved strictly less
than `max(50, 0.1% of the last recorded value)`; otherwise it is persisted
as `(now, netLiquidation, cash)`. -/
theorem c8_throttle (nl : ℚ) (cash : Option ℚ) (now : Int) (l : PPoint)
    (hpos : 0 < nl) :
    recordEffect true true (some nl) cash now (some l) =
      (if now - l.ts < 300000 ∧
          |nl - l.netLiquidation| < max 50 (|l.netLiquidation| / 1000) then
        none
      else some ⟨now, nl, cash⟩) := by
  simp [recordEffect, not_le.mpr hpos]

/-- Witness for C8 (amended): a 60-unit move on a 10000 base after one
second beats the threshold and is persisted. -/
theorem c8_witness :
    ((0 : ℚ) < 10060) ∧
    (recordEffect true true (some 10060) none 1000 (some ⟨0, 10000, none⟩) =
      (if (1000 : Int) - (0 : Int) < 300000 ∧
          |(10060 : ℚ) - 10000| < max 50 (|(10000 : ℚ)| / 1000) then
        none
      else some ⟨1000, 10060, none⟩)) :=
  ⟨by norm_num, c8_throttle 10060 none 1000 ⟨0, 10000, none⟩ (by norm_num)⟩

/-- C9 counterexample: `appendPoint` dedupes only against the LAST stored
point and keeps the earlier one on a tie, so (i) a re-append at the last
timestamp retains the EARLIER write, and (ii) an append at a timestamp
equal to an earlier (non-last) point's creates a duplicate timestamp and
breaks the non-decreasing order. -/
theorem c9_counterexample :
    (appendPointUpdate [⟨1, 100, none⟩] ⟨some 1, some 200, none⟩ =
      [⟨1, 100, none⟩]) ∧
    (appendPointUpdate [⟨1, 100, none⟩, ⟨3, 100, none⟩] ⟨some 1, some 200, none⟩ =
      [⟨1, 100, none⟩, ⟨3, 100, none⟩, ⟨1, 200, none⟩]) := by decide

theorem getLast?_mem_pp : ∀ (l : List PPoint) (x : PPoint),
    l.getLast? = some x → x ∈ l := by
  intro l
  induction l with
  | nil => intro x h; cases h
  | cons a t ih =>
    intro x h
    cases t with
    | nil =>
      simp only [List.getLast?_singleton, Option.some.injEq] at h
      subst h
      exact List.mem_singleton_self _
    | cons b t' =>
      rw [List.getLast?_cons_cons] at h
      exact List.mem_cons_of_mem _ (ih x h)

theorem mem_le_getLast :
    ∀ (l : List PPoint), l.Pairwise (fun a b => a.ts < b.ts) →
      ∀ q ∈ l, ∀ x, l.getLast? = some x → q.ts ≤ x.ts := by
  intro l
  induction l with
  | nil => intro _ q hq; simp at hq
  | cons a t ih =>
    intro hp q hq x hx
    cases t with
    | nil =>
      simp only [List.getLast?_singleton, Option.some.injEq] at hx
      subst hx
      simp only [List.mem_singleton] at hq
      subst hq
      exact le_refl _
    | cons b t' =>
      rw [List.getLast?_cons_cons] at hx
      rcases List.mem_cons.mp hq with rfl | hq'
      · have hx' := getLast?_mem_pp _ _ hx
        exact le_of_lt ((List.pairwise_cons.mp hp).1 x hx')
      · exact ih (List.pairwise_cons.mp hp).2 q hq' x hx

/-- C9 (amended): after the initial load from disk the history is strictly
increasing in timestamp (hence unique per timestamp) and each point is the
LAST normalized record on disk with its timestamp (later write wins);
during the session, `appendPoint` is a no-op (retaining the earlier point)
when the new timestamp equals the last stored one, and it preserves strict
timestamp order whenever the new point's timestamp is at least every
stored timestamp. -/
theorem c9_history_invariants :
    (∀ raws : List RawPoint,
        (dedupeAndSort raws).Pairwise (fun a b => a.ts < b.ts)) ∧
    (∀ (raws : List RawPoint) (p : PPoint),
        p ∈ dedupeAndSort raws ↔ lastPtAux raws p.ts = some p) ∧
    (∀ (prev : List PPoint) (raw : RawPoint) (n : PPoint),
        normalizePoint raw = some n →
        (prev.getLast?.map PPoint.ts = some n.ts →
          appendPointUpdate prev raw = prev) ∧
        (prev.Pairwise (fun a b => a.ts < b.ts) →
          (∀ q ∈ prev, q.ts ≤ n.ts) →
          (appendPointUpdate prev raw).Pairwise (fun a b => a.ts < b.ts))) := by
  have hnd : ∀ raws : List RawPoint, (keysA (insertPoints [] raws)).Nodup :=
    fun raws => keysA_nodup_insertPoints raws [] (by simp [keysA])
  have hic : ∀ raws : List RawPoint,
      IdConsistent PPoint.ts (insertPoints [] raws) :=
    fun raws => tscons_insertPoints raws [] (by intro p hp; simp at hp)
  refine ⟨?_, ?_, ?_⟩
  · intro raws
    have hsorted : (dedupeAndSort raws).Sorted ptLE :=
      List.sorted_insertionSort ptLE _
    have hvals := values_pairwise_ne (hnd raws) (hic raws)
    have hsymm : Symmetric (fun a b : PPoint => PPoint.ts a ≠ PPoint.ts b) :=
      fun x y h => Ne.symm h
    have hne : (dedupeAndSort raws).Pairwise
        (fun a b : PPoint => PPoint.ts a ≠ PPoint.ts b) :=
      ((List.perm_insertionSort ptLE _).pairwise_iff @hsymm).mpr hvals
    have hand := hsorted.and hne
    exact hand.imp (fun h => lt_of_le_of_ne h.1 h.2)
  · intro raws p
    rw [show (p ∈ dedupeAndSort raws) ↔
          p ∈ (insertPoints [] raws).map Prod.snd from
        List.mem_insertionSort ptLE,
      values_mem_iff (hnd raws) (hic raws), lookupA_insertPoints]
    cases lastPtAux raws p.ts <;> simp [orElseO, lookupA]
  · intro prev raw n hn
    constructor
    · intro hlast
      simp only [appendPointUpdate, hn]
      rw [if_pos hlast]
    · intro hsorted hge
      simp only [appendPointUpdate, hn]
      by_cases hlast : prev.getLast?.map PPoint.ts = some n.ts
      · rw [if_pos hlast]
        exact hsorted
      · rw [if_neg hlast]
        have happ : (prev ++ [n]).Pairwise (fun a b => a.ts < b.ts) := by
          rw [List.pairwise_append]
          refine ⟨hsorted, List.pairwise_singleton _ _, ?_⟩
          intro q hq b hb
          rw [List.mem_singleton] at hb
          rw [hb]
          rcases lt_or_eq_of_le (hge q hq) with hlt | heq
          · exact hlt
          · exfalso
            have hpne : prev ≠ [] := by
              intro hnil
              rw [hnil] at hq
              simp at hq
            obtain ⟨x, hx⟩ := Option.ne_none_iff_exists'.mp
              (mt List.getLast?_eq_none_iff.mp hpne)
            have hqx := mem_le_getLast prev hsorted q hq x hx
            have hxn := hge x (getLast?_mem_pp prev x hx)
            have : x.ts = n.ts := le_antisymm hxn (heq ▸ hqx)
            exact hlast (by rw [hx]; simp [this])
        split
        · exact happ.sublist (List.drop_sublist _ _)
        · exact happ

/-- Witness for C9 (amended) at a concrete in-order append. -/
theorem c9_witness :
    (normalizePoint ⟨some 5, some 300, none⟩ = some ⟨5, 300, none⟩) ∧
    (([⟨1, 100, none⟩, ⟨3, 200, none⟩] : List PPoint).getLast?.map PPoint.ts =
        some (⟨5, 300, none⟩ : PPoint).ts →
      appendPointUpdate [⟨1, 100, none⟩, ⟨3, 200, none⟩] ⟨some 5, some 300, none⟩ =
        [⟨1, 100, none⟩, ⟨3, 200, none⟩]) ∧
    (([⟨1, 100, none⟩, ⟨3, 200, none⟩] : List PPoint).Pairwise
        (fun a b => a.ts < b.ts) →
      (∀ q ∈ ([⟨1, 100, none⟩, ⟨3, 200, none⟩] : List PPoint),
          q.ts ≤ (⟨5, 300, none⟩ : PPoint).ts) →
      (appendPointUpdate [⟨1, 100, none⟩, ⟨3, 200, none⟩]
          ⟨some 5, some 300, none⟩).Pairwise (fun a b => a.ts < b.ts)) :=
  ⟨by decide,
   (c9_history_invariants.2.2 [⟨1, 100, none⟩, ⟨3, 200, none⟩]
      ⟨some 5, some 300, none⟩ ⟨5, 300, none⟩ (by decide)).1,
   (c9_history_invariants.2.2 [⟨1, 100, none⟩, ⟨3, 200, none⟩]
      ⟨some 5, some 300, none⟩ ⟨5, 300, none⟩ (by decide)).2⟩

/-! ## Open Orders Registry (`useOrders`) -/

/-- One record of `ordersMapRef` (the shape built by `onOpenOrder`). -/
structure OrderData where
  orderId : Int
  symbol : String
  action : String
  quantity : ℚ
  orderType : String
  status : String
  filled : ℚ
  remaining : ℚ
  avgFillPrice : ℚ
  lastUpdate : Int
  deriving DecidableEq, Repr

/-- JS `x || y` on optional numbers: `0`, `NaN` and a missing value are
falsy and fall through to `y`. -/
def jsOrNum (x : Option ℚ) (y : ℚ) : ℚ :=
  match x with
  | some v => if v = 0 then y else v
  | none => y

/-- Events handled by the registry subscription: `openOrder` snapshots,
`orderStatus` deltas, and the end-of-list marker. -/
inductive REvent where
  | openOrder (orderId : Int) (symbol action : String) (totalQuantity : ℚ)
      (orderType status : String) (filled remaining avgFillPrice : Option ℚ)
      (now : Int)
  | orderStatus (orderId : Int) (status : String)
      (filled remaining avgFillPrice : ℚ) (now : Int)
  | openOrderEnd
  deriving DecidableEq, Repr

/-- Registry state: the id-keyed order map and the rendered pending view. -/
structure RState where
  map : List (Int × OrderData)
  ordersView : List OrderData
  deriving DecidableEq, Repr

def pendingStatuses : List String := ["PendingSubmit", "PreSubmitted", "Submitted"]

/-- Most-recently-updated-first comparator of `updateOrdersState`'s sort. -/
def recentLE (a b : OrderData) : Prop := b.lastUpdate ≤ a.lastUpdate

instance : DecidableRel recentLE := fun a b => by
  unfold recentLE
  infer_instance

instance : IsTotal OrderData recentLE := ⟨fun a b => Int.le_total b.lastUpdate a.lastUpdate⟩

instance : IsTrans OrderData recentLE := ⟨fun _ _ _ h1 h2 => le_trans h2 h1⟩

/-- `updateOrdersState`: values filtered to pending statuses, sorted
most-recently-updated first. -/
def pendingView (m : List (Int × OrderData)) : List OrderData :=
  List.insertionSort recentLE
    ((m.map Prod.snd).filter (fun o => pendingStatuses.contains o.status))

/-- One registry event: `onOpenOrder` upserts a full record and re-renders;
`onOrderStatus` updates only an EXISTING record's status fields and
re-renders, and does nothing at all for an unknown id; `openOrderEnd` only
clears the loading flag. -/
def rStep (s : RState) (e : REvent) : RState :=
  match e with
  | .openOrder oid sym act qty typ st f r a now =>
    let od : OrderData :=
      ⟨oid, sym, act, qty, typ, st, jsOrNum f 0, jsOrNum r qty, jsOrNum a 0, now⟩
    let m' := upsertA s.map oid od
    ⟨m', pendingView m'⟩
  | .orderStatus oid st f r a now =>
    match lookupA s.map oid with
    | none => s
    | some ex =>
      let od : OrderData :=
        ⟨ex.orderId, ex.symbol, ex.action, ex.quantity, ex.orderType,
         st, f, r, a, now⟩
      let m' := upsertA s.map oid od
      ⟨m', pendingView m'⟩
  | .openOrderEnd => s

/-- C10: an order-status delta for an order id that is not in the internal
map has no effect — no entry is created, the map and the pending view are
unchanged — and map entries are created only by open-order snapshot
events. -/
theorem c10_registry_frame :
    (∀ (s : RState) (oid : Int) (st : String) (f r a : ℚ) (now : Int),
        lookupA s.map oid = none →
        rStep s (REvent.orderStatus oid st f r a now) = s) ∧
    (∀ (s : RState) (e : REvent) (k : Int),
        lookupA (rStep s e).map k ≠ none →
        lookupA s.map k ≠ none ∨
          ∃ sym act qty typ st f r a now,
            e = REvent.openOrder k sym act qty typ st f r a now) := by
  constructor
  · intro s oid st f r a now h
    simp [rStep, h]
  · intro s e k h
    cases e with
    | openOrder oid sym act qty typ st f r a now =>
      by_cases hk : k = oid
      · subst hk
        exact Or.inr ⟨sym, act, qty, typ, st, f, r, a, now, rfl⟩
      · left
        simp only [rStep] at h
        rw [lookupA_upsertA_ne _ _ _ _ hk] at h
        exact h
    | orderStatus oid st f r a now =>
      left
      cases hl : lookupA s.map oid with
      | none =>
        simp only [rStep, hl] at h
        exact h
      | some ex =>
        simp only [rStep, hl] at h
        by_cases hk : k = oid
        · subst hk
          rw [hl]
          simp
        · rw [lookupA_upsertA_ne _ _ _ _ hk] at h
          exact h
    | openOrderEnd => exact Or.inl (by simpa [rStep] using h)

/-- Witness for C10: a status delta for id 42 on an empty registry is a
complete no-op. -/
theorem c10_witness :
    (lookupA (⟨[], []⟩ : RState).map 42 = none) ∧
    (rStep ⟨[], []⟩ (REvent.orderStatus 42 "Filled" 1 0 10 99) = ⟨[], []⟩) :=
  ⟨rfl, c10_registry_frame.1 ⟨[], []⟩ 42 "Filled" 1 0 10 99 rfl⟩

/-! ## Cancel operation (`useOrders.cancelOrder`) -/

/-- State of one `cancelOrder` call: the target id, the shared registry map
and orders view, and whether the listeners/timer are still active. -/
structure CState where
  orderId : Int
  map : List (Int × OrderData)
  ordersView : List OrderData
  listening : Bool
  timerActive : Bool
  deriving DecidableEq, Repr

structure CancelResult where
  orderId : Int
  status : String
  deriving DecidableEq, Repr

def cInit (oid : Int) (m : List (Int × OrderData)) (v : List OrderData) : CState :=
  ⟨oid, m, v, true, true⟩

/-- `err?.message || 'Error cancelando orden'`. -/
def errMsgCancel (m : String) : String :=
  if m = "" then "Error cancelando orden" else m

/-- One step of the cancel flow: `onOrderStatus` resolves on a `Cancelled`
status for the target id (removing the order from the map and filtering it
out of the view); `onError` rejects on an error whose `data.id` equals the
target id; the 10-second timer rejects with a timeout message. -/
def cancelStep (s : CState) (e : TEvent) :
    CState × Option (Except String CancelResult) :=
  match e with
  | .orderStatus id st _ _ _ =>
    if !s.listening then (s, none)
    else if id ≠ s.orderId then (s, none)
    else if st = "Cancelled" then
      ({ s with listening := false, timerActive := false,
                map := eraseKeyA s.map s.orderId,
                ordersView := s.ordersView.filter
                  (fun o => decide (o.orderId ≠ s.orderId)) },
       some (.ok ⟨s.orderId, "Cancelled"⟩))
    else (s, none)
  | .error msg dId =>
    if !s.listening then (s, none)
    else if dId = some s.orderId then
      ({ s with listening := false, timerActive := false },
       some (.error (errMsgCancel msg)))
    else (s, none)
  | .timeout =>
    if !s.timerActive then (s, none)
    else
      ({ s with listening := false, timerActive := false },
       some (.error "Timeout cancelando orden"))

/-- Run the cancel flow over an event trace. -/
def runC (s : CState) : List TEvent → CState × List (Except String CancelResult)
  | [] => (s, [])
  | e :: tr =>
    let p := cancelStep s e
    let q := runC p.1 tr
    (q.1, p.2.toList ++ q.2)

theorem runC_append (s : CState) (l1 l2 : List TEvent) :
    runC s (l1 ++ l2) =
      ((runC (runC s l1).1 l2).1, (runC s l1).2 ++ (runC (runC s l1).1 l2).2) := by
  induction l1 generalizing s with
  | nil => simp [runC]
  | cons e tr ih => simp [runC, ih (cancelStep s e).1, List.append_assoc]

/-- An event that is not a `Cancelled` status for the target id, not an
error scoped exactly to the target id, and not the timer firing. -/
def cnonDeciding (oid : Int) (e : TEvent) : Prop :=
  match e with
  | .orderStatus id st _ _ _ => ¬(id = oid ∧ st = "Cancelled")
  | .error _ dId => dId ≠ some oid
  | .timeout => False

theorem cancelStep_nonDeciding {s : CState} {e : TEvent}
    (hl : s.listening = true) (h : cnonDeciding s.orderId e) :
    cancelStep s e = (s, none) := by
  cases e with
  | orderStatus id st f r a =>
    by_cases hid : id = s.orderId
    · have hst : st ≠ "Cancelled" := fun hc => h ⟨hid, hc⟩
      simp [cancelStep, hl, hid, hst]
    · simp [cancelStep, hl, hid]
  | error msg dId =>
    have : dId ≠ some s.orderId := h
    simp [cancelStep, hl, this]
  | timeout => exact absurd h (fun hf => hf)

theorem runC_nonDeciding :
    ∀ (tr : List TEvent) (s : CState), s.listening = true →
      (∀ e ∈ tr, cnonDeciding s.orderId e) → runC s tr = (s, []) := by
  intro tr
  induction tr with
  | nil => intro s _ _; rfl
  | cons e tr ih =>
    intro s hl h
    have hstep := cancelStep_nonDeciding hl (h e (List.mem_cons_self _ _))
    simp [runC, hstep, ih s hl (fun e' he' => h e' (List.mem_cons_of_mem _ he'))]

/-- C6: while only non-deciding events have arrived, (i) a `Cancelled`
status for the target id resolves the promise with
`{orderId, status: 'Cancelled'}`, removes the order from the local map and
leaves it absent from the pending-orders view; (ii) an error event scoped
to the id rejects with the broker's message; (iii) the 10-second timer
firing rejects with the timeout message. -/
theorem c6_cancel (oid : Int) (m : List (Int × OrderData))
    (v : List OrderData) (tr : List TEvent)
    (h : ∀ e ∈ tr, cnonDeciding oid e) :
    (∀ f r a : ℚ,
      ((runC (cInit oid m v) (tr ++ [TEvent.orderStatus oid "Cancelled" f r a])).2 =
        [Except.ok ⟨oid, "Cancelled"⟩]) ∧
      (lookupA (runC (cInit oid m v)
          (tr ++ [TEvent.orderStatus oid "Cancelled" f r a])).1.map oid = none) ∧
      (∀ o ∈ (runC (cInit oid m v)
          (tr ++ [TEvent.orderStatus oid "Cancelled" f r a])).1.ordersView,
        o.orderId ≠ oid)) ∧
    (∀ (msg : String) (dId : Option Int), dId = some oid → msg ≠ "" →
      (runC (cInit oid m v) (tr ++ [TEvent.error msg dId])).2 =
        [Except.error msg]) ∧
    ((runC (cInit oid m v) (tr ++ [TEvent.timeout])).2 =
      [Except.error "Timeout cancelando orden"]) := by
  have hrun := runC_nonDeciding tr (cInit oid m v) rfl h
  refine ⟨?_, ?_, ?_⟩
  · intro f r a
    rw [runC_append, hrun]
    simp only [runC, cancelStep, cInit, List.nil_append]
    refine ⟨by simp, ?_, ?_⟩
    · simp only [Bool.not_true, Bool.false_eq_true, if_false, ne_eq,
        not_true_eq_false, if_pos rfl]
      simp [lookupA_eraseKeyA_self m oid]
    · intro o ho
      simp only [Bool.not_true, Bool.false_eq_true, if_false, ne_eq,
        not_true_eq_false, if_pos rfl, List.append_nil] at ho
      have := List.of_mem_filter ho
      exact of_decide_eq_true this
  · intro msg dId hd hne
    subst hd
    rw [runC_append, hrun]
    simp [runC, cancelStep, cInit, errMsgCancel, hne]
  · rw [runC_append, hrun]
    simp [runC, cancelStep, cInit]

/-- Witness for C6 at a concrete one-order registry. -/
theorem c6_witness :
    (((runC (cInit 42
        [(42, ⟨42, "TSLA", "BUY", 5, "MKT", "Submitted", 0, 5, 0, 7⟩)]
        [⟨42, "TSLA", "BUY", 5, "MKT", "Submitted", 0, 5, 0, 7⟩]
        ) ([TEvent.orderStatus 43 "Filled" 1 0 10] ++
          [TEvent.orderStatus 42 "Cancelled" 0 5 0])).2 =
      [Except.ok ⟨42, "Cancelled"⟩]) ∧
     (lookupA (runC (cInit 42
        [(42, ⟨42, "TSLA", "BUY", 5, "MKT", "Submitted", 0, 5, 0, 7⟩)]
        [⟨42, "TSLA", "BUY", 5, "MKT", "Submitted", 0, 5, 0, 7⟩]
        ) ([TEvent.orderStatus 43 "Filled" 1 0 10] ++
          [TEvent.orderStatus 42 "Cancelled" 0 5 0])).1.map 42 = none) ∧
     (∀ o ∈ (runC (cInit 42
        [(42, ⟨42, "TSLA", "BUY", 5, "MKT", "Submitted", 0, 5, 0, 7⟩)]
        [⟨42, "TSLA", "BUY", 5, "MKT", "Submitted", 0, 5, 0, 7⟩]
        ) ([TEvent.orderStatus 43 "Filled" 1 0 10] ++
          [TEvent.orderStatus 42 "Cancelled" 0 5 0])).1.ordersView,
       o.orderId ≠ 42)) :=
  (c6_cancel 42
    [(42, ⟨42, "TSLA", "BUY", 5, "MKT", "Submitted", 0, 5, 0, 7⟩)]
    [⟨42, "TSLA", "BUY", 5, "MKT", "Submitted", 0, 5, 0, 7⟩]
    [TEvent.orderStatus 43 "Filled" 1 0 10]
    (by intro e he; simp at he; subst he; simp [cnonDeciding])).1 0 5 0

end Folio
